import Mathlib

/-!
# statistical_analysis.cpp: moment accumulator and histogram binning

A shallow embedding of `calculate_statistics` and of the binning loop of
`print_histogram` from `src/statistical_analysis.cpp`.

The source computes in C++ `double`.  The embedding keeps that: `F64` is a model
of IEEE-754 binary64 (round to nearest, ties to even, signed zeros, infinities,
NaN), and every arithmetic operator of the source is the corresponding rounded
operation of the model.  Sums are accumulated left to right, as
`std::accumulate` and `std::inner_product` do.  No fused multiply-add is assumed.
-/

namespace StatAnalysis

/-! ## IEEE-754 binary64 -/

/-- A binary64 value.  Every finite double is an integer multiple of `2^-1074`
(the smallest subnormal), so a finite value is stored as a sign and a magnitude
`k` counted in that unit: `fin neg k` is `(-1)^neg * k * 2^-1074`. -/
inductive F64 where
  | nan : F64
  | inf (neg : Bool) : F64
  | fin (neg : Bool) (k : Nat) : F64
deriving DecidableEq

/-- Number of units of `2^-1074` in `1.0`. -/
@[irreducible] def unit : Nat := 2 ^ 1074

/-- First magnitude (in units) that is too large for a finite double: `2^1024`. -/
@[irreducible] def overflowMag : Nat := 2 ^ 2098

/-- Nearest integer to `a / b`, ties to the even integer. -/
def rne (a b : Nat) : Nat :=
  let q := a / b
  let r := a % b
  if 2 * r < b then q else if b < 2 * r then q + 1 else if q % 2 = 0 then q else q + 1

/-- Number of binary-search levels that suffice for `t`: the first `i`, counting
up from `start`, with `t < 2^(52 + 2^i)`. -/
def levelsAux : Nat → Nat → Nat → Nat
  | 0, i, _ => i
  | fuel + 1, i, t => if t < 2 ^ (52 + 2 ^ i) then i else levelsAux fuel (i + 1) t

/-- The first `i` with `t < 2^(52 + 2^i)`. -/
def levels (t : Nat) : Nat := levelsAux t 0 t

/-- Number of halvings that bring `t` below `2^53`, found bit by bit from
`2^(i-1)` down to `1`, for `t < 2^(52 + 2^i)`. -/
def ulpExpAux : Nat → Nat → Nat
  | 0, _ => 0
  | i + 1, t =>
    if 2 ^ (52 + 2 ^ i) ≤ t then 2 ^ i + ulpExpAux i (t / 2 ^ 2 ^ i) else ulpExpAux i t

/-- Binary exponent of the spacing of doubles around magnitude `t` (in units):
spacing is `1` below `2^53` and doubles with every further binade.  It is the
number of halvings that bring `t` below `2^53`. -/
def ulpExp (t : Nat) : Nat := ulpExpAux (levels t) t

/-- Magnitude of the double nearest to `a / b` units (ties to even mantissa).
The result may be `overflowMag`, which stands for infinity. -/
def roundMag (a b : Nat) : Nat :=
  let j := ulpExp (a / b)
  rne a (b * 2 ^ j) * 2 ^ j

/-- Finite double of the given magnitude, or infinity when it overflows. -/
def ofMag (neg : Bool) (k : Nat) : F64 :=
  if k < overflowMag then F64.fin neg k else F64.inf neg

/-- The double nearest to `(-1)^neg * a / b` units. -/
def roundTo (neg : Bool) (a b : Nat) : F64 := ofMag neg (roundMag a b)

/-- A magnitude is that of a double when it has at most 53 significant bits
and is below `2^1024`. -/
def Representable (k : Nat) : Prop := k < overflowMag ∧ 2 ^ ulpExp k ∣ k

instance (k : Nat) : Decidable (Representable k) := by
  unfold Representable; exact inferInstance

/-- Well-formed doubles: the finite ones carry a representable magnitude. -/
def F64.WF : F64 → Prop
  | F64.fin _ k => Representable k
  | _ => True

instance (x : F64) : Decidable x.WF := by
  cases x <;> unfold F64.WF <;> exact inferInstance

/-- Signed integer value of a finite magnitude, in units of `2^-1074`. -/
def sval (neg : Bool) (k : Nat) : Int := if neg then -(k : Int) else (k : Int)

/-- Negation: flips the sign bit. -/
def fneg : F64 → F64
  | F64.nan => F64.nan
  | F64.inf s => F64.inf (!s)
  | F64.fin s k => F64.fin (!s) k

/-- Rounded addition `a + b`. -/
def fadd : F64 → F64 → F64
  | F64.nan, _ => F64.nan
  | _, F64.nan => F64.nan
  | F64.inf s, F64.inf t => if s = t then F64.inf s else F64.nan
  | F64.inf s, F64.fin _ _ => F64.inf s
  | F64.fin _ _, F64.inf t => F64.inf t
  | F64.fin s a, F64.fin t b =>
    let z := sval s a + sval t b
    if z = 0 then F64.fin (s && t) 0
    else roundTo (decide (z < 0)) z.natAbs 1

/-- Rounded subtraction `a - b`. -/
def fsub (a b : F64) : F64 := fadd a (fneg b)

/-- Rounded multiplication `a * b`. -/
def fmul : F64 → F64 → F64
  | F64.nan, _ => F64.nan
  | _, F64.nan => F64.nan
  | F64.inf s, F64.inf t => F64.inf (xor s t)
  | F64.inf s, F64.fin t b => if b = 0 then F64.nan else F64.inf (xor s t)
  | F64.fin s a, F64.inf t => if a = 0 then F64.nan else F64.inf (xor s t)
  | F64.fin s a, F64.fin t b => roundTo (xor s t) (a * b) unit

/-- Rounded division `a / b`. -/
def fdiv : F64 → F64 → F64
  | F64.nan, _ => F64.nan
  | _, F64.nan => F64.nan
  | F64.inf _, F64.inf _ => F64.nan
  | F64.inf s, F64.fin t _ => F64.inf (xor s t)
  | F64.fin s _, F64.inf t => F64.fin (xor s t) 0
  | F64.fin s a, F64.fin t b =>
    if b = 0 then (if a = 0 then F64.nan else F64.inf (xor s t))
    else roundTo (xor s t) (a * unit) b

/-- Integer square root by bisection on the bits `2^(i-1), ..., 2, 1`:
the largest `r` extending `acc` with `r * r ≤ n`. -/
def isqrtAux (n : Nat) : Nat → Nat → Nat
  | 0, acc => acc
  | i + 1, acc =>
    if (acc + 2 ^ i) * (acc + 2 ^ i) ≤ n then isqrtAux n i (acc + 2 ^ i) else isqrtAux n i acc

/-- Floor of the square root of `n`, for `n < 2^4400`. -/
def isqrt (n : Nat) : Nat := isqrtAux n 2200 0

/-- Magnitude of the double nearest to the square root of `k` units. -/
def sqrtMag (k : Nat) : Nat :=
  let n := k * unit
  let j := ulpExp (isqrt n)
  let q := isqrt (n / 4 ^ j)
  let lhs := 4 * n
  let rhs := 4 ^ j * ((2 * q + 1) * (2 * q + 1))
  (if lhs < rhs then q else if rhs < lhs then q + 1 else if q % 2 = 0 then q else q + 1) * 2 ^ j

/-- Correctly rounded square root, `std::sqrt`. -/
def fsqrt : F64 → F64
  | F64.nan => F64.nan
  | F64.inf s => if s then F64.nan else F64.inf false
  | F64.fin s k => if k = 0 then F64.fin s 0 else if s then F64.nan else ofMag false (sqrtMag k)

/-- Comparison `a < b` of doubles: false when either side is NaN, and the two
zeros are equal. -/
def flt : F64 → F64 → Bool
  | F64.nan, _ => false
  | _, F64.nan => false
  | F64.inf s, F64.inf t => s && !t
  | F64.inf s, F64.fin _ _ => s
  | F64.fin _ _, F64.inf t => !t
  | F64.fin s a, F64.fin t b => decide (sval s a < sval t b)

/-- Comparison `a <= b` of doubles: false when either side is NaN. -/
def fle : F64 → F64 → Bool
  | F64.nan, _ => false
  | _, F64.nan => false
  | F64.inf s, F64.inf t => s || !t
  | F64.inf s, F64.fin _ _ => s
  | F64.fin _ _, F64.inf t => !t
  | F64.fin s a, F64.fin t b => decide (sval s a ≤ sval t b)

/-- Comparison `a == b` of doubles: false when either side is NaN, and the two
zeros are equal. -/
def feq : F64 → F64 → Bool
  | F64.nan, _ => false
  | _, F64.nan => false
  | F64.inf s, F64.inf t => s == t
  | F64.inf _, F64.fin _ _ => false
  | F64.fin _ _, F64.inf _ => false
  | F64.fin s a, F64.fin t b => decide (sval s a = sval t b)

/-- Conversion of an unsigned integer (`data.size()`) to double: exact below
`2^53`, rounded to nearest above. -/
def ofNat (n : Nat) : F64 := roundTo false (n * unit) 1

/-- Conversion of a signed integer to double. -/
def ofInt (z : Int) : F64 := roundTo (decide (z < 0)) (z.natAbs * unit) 1

/-- The double nearest to the fraction `p / q`, the value a decimal literal such
as `0.1` (`ofRatio false 1 10`) denotes. -/
def ofRatio (neg : Bool) (p q : Nat) : F64 := roundTo neg (p * unit) q

/-- The literal `0.0`. -/
def zero : F64 := F64.fin false 0

/-- The literal `3.0`. -/
def three : F64 := ofNat 3

/-- Two's-complement wrap of a 32-bit `int` result. -/
def wrap32 (z : Int) : Int := (z + 2 ^ 31) % 2 ^ 32 - 2 ^ 31

/-- Conversion `static_cast<int>(x)`: truncation toward zero.  C++ leaves the
conversion undefined when the truncated value does not fit an `int` (or `x` is
NaN or infinite); the model returns what the x86-64 conversion instruction
returns there, the "integer indefinite" value `-2^31`. -/
def toInt32 : F64 → Int
  | F64.fin s k =>
    let t := sval s (k / unit)
    if -(2 ^ 31) ≤ t ∧ t < 2 ^ 31 then t else -(2 ^ 31)
  | _ => -(2 ^ 31)

/-! ## The source: `calculate_statistics` -/

/-- The record `struct Statistics`. -/
structure Statistics where
  mean : F64
  stddev : F64
  min : F64
  max : F64
  skewness : F64
  kurtosis : F64
deriving DecidableEq

/-- The call `std::accumulate(first, last, init)`: left-to-right sum. -/
def accumulate (data : List F64) (init : F64) : F64 :=
  data.foldl (fun acc x => fadd acc x) init

/-- The call `std::inner_product(first1, last1, first2, init)`:
`acc = acc + a * b` over the paired elements, left to right. -/
def inner_product (xs ys : List F64) (init : F64) : F64 :=
  (List.zip xs ys).foldl (fun acc p => fadd acc (fmul p.1 p.2)) init

/-- The expression `*std::min_element(first, last)`: the first smallest element
under `<`.  On an empty range the iterator is `last` and dereferencing it is
undefined: `none`. -/
def min_element : List F64 → Option F64
  | [] => none
  | x :: xs => some (xs.foldl (fun smallest v => if flt v smallest then v else smallest) x)

/-- The expression `*std::max_element(first, last)`: the first largest element
under `<`; `none` on an empty range. -/
def max_element : List F64 → Option F64
  | [] => none
  | x :: xs => some (xs.foldl (fun largest v => if flt largest v then v else largest) x)

/-- One iteration of the moment loop (source lines 35-40) on the accumulator
pair `(skewness, kurtosis)`. -/
def momentStep (mean stddev : F64) (acc : F64 × F64) (x : F64) : F64 × F64 :=
  let diff := fdiv (fsub x mean) stddev
  let diff2 := fmul diff diff
  (fadd acc.1 (fmul diff diff2), fadd acc.2 (fmul diff2 diff2))

/-- The function `calculate_statistics` (source lines 21-45).  The result is
`none` exactly when the source dereferences the end iterator (empty input). -/
def calculate_statistics (data : List F64) : Option Statistics :=
  let sum := accumulate data zero
  let mean := fdiv sum (ofNat data.length)
  let sq_sum := inner_product data data zero
  let variance := fsub (fdiv sq_sum (ofNat data.length)) (fmul mean mean)
  let stddev := fsqrt variance
  match min_element data, max_element data with
  | some min, some max =>
    let acc := data.foldl (momentStep mean stddev) (zero, zero)
    let skewness := fdiv acc.1 (ofNat data.length)
    let kurtosis := fsub (fdiv acc.2 (ofNat data.length)) three
    some { mean := mean, stddev := stddev, min := min, max := max,
           skewness := skewness, kurtosis := kurtosis }
  | _, _ => none

/-! ## The source: binning loop of `print_histogram` -/

/-- The statement `histogram[bin]++` on the vector of `int` counters. -/
def incrAt : List Int → Nat → List Int
  | [], _ => []
  | c :: cs, 0 => wrap32 (c + 1) :: cs
  | c :: cs, i + 1 => c :: incrAt cs i

/-- The bin index computed at source line 54:
`static_cast<int>((value - min) / (max - min) * (bins - 1))`. -/
def binIndex (min max : F64) (bins : Nat) (value : F64) : Int :=
  toInt32 (fmul (fdiv (fsub value min) (fsub max min)) (ofInt ((bins : Int) - 1)))

/-- One iteration of the binning loop (source lines 54-55): the guarded
increment. -/
def binStep (min max : F64) (bins : Nat) (histogram : List Int) (value : F64) : List Int :=
  let bin := binIndex min max bins value
  if 0 ≤ bin ∧ bin < (bins : Int) then incrAt histogram bin.toNat else histogram

/-- The histogram built by `print_histogram` (source lines 49-56) for a
non-negative `int` bin count `bins`; `none` when the source dereferences the end
iterator (empty input). -/
def buildHistogram (data : List F64) (bins : Nat) : Option (List Int) :=
  match min_element data, max_element data with
  | some min, some max =>
    some (data.foldl (binStep min max bins) (List.replicate bins 0))
  | _, _ => none

/-! ## Locals of `calculate_statistics` by name -/

/-- The local `mean` of `calculate_statistics` (source lines 22-23). -/
def meanOf (data : List F64) : F64 := fdiv (accumulate data zero) (ofNat data.length)

/-- The local `variance` of `calculate_statistics` (source lines 25-26). -/
def varianceOf (data : List F64) : F64 :=
  fsub (fdiv (inner_product data data zero) (ofNat data.length))
    (fmul (meanOf data) (meanOf data))

/-- The local `stddev` of `calculate_statistics` (source line 27). -/
def stddevOf (data : List F64) : F64 := fsqrt (varianceOf data)

/-- The accumulator pair `(skewness, kurtosis)` when the moment loop of
`calculate_statistics` ends (source lines 33-40). -/
def momentsOf (data : List F64) : F64 × F64 :=
  data.foldl (momentStep (meanOf data) (stddevOf data)) (zero, zero)

/-- The standardized deviation `(x - mean) / stddev` (source line 36). -/
def standardize (mean stddev x : F64) : F64 := fdiv (fsub x mean) stddev

/-- The third power `d^3`, formed as the source does: `d * (d * d)`. -/
def cube (d : F64) : F64 := fmul d (fmul d d)

/-- The fourth power `d^4`, formed as the source does: `(d * d) * (d * d)`. -/
def fourth (d : F64) : F64 := fmul (fmul d d) (fmul d d)

/-! ## The formulas of the specification

The specification writes the moments as sums over the samples `x_1 .. x_n`.  In
double arithmetic a sum is read in index order: `S_0 = 0.0`,
`S_k = S_(k-1) + t_k`. -/

/-- The sum `t_0 + t_1 + ... + t_(k-1)` in double arithmetic, added in index
order starting from `0.0`. -/
def partialSum (term : Nat → F64) : Nat → F64
  | 0 => zero
  | k + 1 => fadd (partialSum term k) (term k)

/-- Sample `x_i` of the sequence (index from 0). -/
def sample (data : List F64) (i : Nat) : F64 := data.getD i zero

/-- Specification: mean = arithmetic average, `(sum of x_i) / n`. -/
def specMean (data : List F64) : F64 :=
  fdiv (partialSum (sample data) data.length) (ofNat data.length)

/-- Specification: variance = `(sum of x_i^2) / n - mean^2`. -/
def specVariance (data : List F64) : F64 :=
  fsub (fdiv (partialSum (fun i => fmul (sample data i) (sample data i)) data.length)
      (ofNat data.length))
    (fmul (specMean data) (specMean data))

/-- Specification: stddev = `sqrt(variance)`. -/
def specStddev (data : List F64) : F64 := fsqrt (specVariance data)

/-- Specification: the mean over all `n` samples of the terms `t_i`,
`(sum of t_i) / n`. -/
def meanOver (n : Nat) (term : Nat → F64) : F64 := fdiv (partialSum term n) (ofNat n)

/-- Specification: the bin index of sample `v`,
`floor((v - min) / (max - min) * (bins - 1))`, the arithmetic being that of
doubles and the floor that of the exact value of the product; there is no index
(`none`) when the product is NaN or infinite. -/
def specBinIndex (min max : F64) (bins : Nat) (v : F64) : Option Int :=
  match fmul (fdiv (fsub v min) (fsub max min)) (ofInt ((bins : Int) - 1)) with
  | F64.fin s k => some (Int.fdiv (sval s k) (unit : Int))
  | _ => none

/-- An index that exists and lies in `[0, bins)`. -/
def inRange (bins : Nat) : Option Int → Bool
  | some j => decide (0 ≤ j ∧ j < (bins : Int))
  | none => false

/-! ## Predicates used in the statements -/

/-- Finite doubles (neither NaN nor infinite). -/
def F64.isFinite : F64 → Bool
  | F64.fin _ _ => true
  | _ => false

/-- Exact value of a finite double in units of `2^-1074` (`0` for NaN and the
infinities). -/
def F64.units : F64 → Int
  | F64.fin s k => sval s k
  | _ => 0

/-- The floating-point sum of the sequence incurred no rounding error: it is
finite and its exact value is the exact sum of the samples. -/
def SumExact (data : List F64) : Prop :=
  (accumulate data zero).isFinite = true ∧
    (accumulate data zero).units = (data.map F64.units).sum

instance (data : List F64) : Decidable (SumExact data) := by
  unfold SumExact; exact inferInstance

/-- Specification: the sequence is symmetric about `mu`: the samples can be
paired off, each with a mirror image `y` of itself (`x + y = 2 * mu` exactly), so
that the mirror images are a permutation of the sequence. -/
def SymmetricAbout (mu : F64) (data : List F64) : Prop :=
  mu.isFinite = true ∧ ∃ mirror : List F64, List.Perm data mirror ∧
    List.Forall₂ (fun x y => x.isFinite = true ∧ y.isFinite = true ∧
      x.units + y.units = 2 * mu.units) data mirror

/-- A double that is not below zero: NaN, `+inf`, a finite value with a clear
sign bit, or `-0.0`. -/
def NonNeg : F64 → Prop
  | F64.inf s => s = false
  | F64.fin s k => s = false ∨ k = 0
  | F64.nan => True

/-- A double with a clear sign bit, or NaN. -/
def SignClear : F64 → Prop
  | F64.inf s => s = false
  | F64.fin s _ => s = false
  | F64.nan => True

/-- Two doubles that are negatives of each other in value: both NaN, opposite
infinities, or finite with the same magnitude and opposite signs (any signs when
the magnitude is zero). -/
def Opp : F64 → F64 → Prop
  | F64.nan, F64.nan => True
  | F64.inf s, F64.inf t => s ≠ t
  | F64.fin s k, F64.fin t j => k = j ∧ (k = 0 ∨ s ≠ t)
  | _, _ => False

/-! ## Sample inputs -/

/-- The literal `0.1`: the double `0x1.999999999999ap-4`. -/
def tenth : F64 := ofRatio false 1 10

/-- The literal `0.09999999999999999`: the double `0x1.9999999999999p-4`, next
below `0.1`. -/
def belowTenth : F64 := ofRatio false 9999999999999999 100000000000000000

/-- The literal sequence `[1.0, 2.0, 3.0, 4.0, 5.0]`. -/
def oneToFive : List F64 := [ofNat 1, ofNat 2, ofNat 3, ofNat 4, ofNat 5]

/-- The literal sequence `[0.0, 1.0, 4.0, 3.0]`, symmetric about its mean `2`. -/
def zeroOneFourThree : List F64 := [ofNat 0, ofNat 1, ofNat 4, ofNat 3]

/-- The double `2^53` (`9007199254740992.0`). -/
def twoPow53 : F64 := ofNat (2 ^ 53)

/-- The double `-2^53`. -/
def negTwoPow53 : F64 := ofInt (-(2 ^ 53))

/-- The double `-2^54`. -/
def negTwoPow54 : F64 := ofInt (-(2 ^ 54))

/-- The literal `0.5`. -/
def half : F64 := ofRatio false 1 2

/-- The largest finite double, `DBL_MAX` (`0x1.fffffffffffffp+1023`). -/
def maxDouble : F64 := F64.fin false ((2 ^ 53 - 1) * 2 ^ 2045)

/-! ## The source: rendering loop of `print_histogram` -/

/-- The expression `*std::max_element(histogram.begin(), histogram.end())` on the
`int` counters (source line 58); `none` on an empty histogram, where the source
dereferences the end iterator. -/
def max_count : List Int → Option Int
  | [] => none
  | c :: cs => some (cs.foldl (fun largest v => if largest < v then v else largest) c)

/-- The constant `height` (source line 59). -/
def height : Int := 20

/-- Product of two `int` values, wrapped to 32 bits. -/
def imul (a b : Int) : Int := wrap32 (a * b)

/-- The character printed for one bin in row `h` (source line 65):
`count * height >= max_count * h ? '*' : ' '`. -/
def cell (maxCount h count : Int) : Char :=
  if imul maxCount h ≤ imul count height then '*' else ' '

/-- The row label `max_count * h / height` (source line 63): `int` division,
which truncates toward zero. -/
def rowLabel (maxCount h : Int) : Int := Int.tdiv (imul maxCount h) height

/-- Output of `operator<<` for an `int`: decimal digits, with a leading `-` for
a negative value.  The manipulators `std::fixed` and `std::setprecision` do not
affect integer output. -/
def formatInt (z : Int) : String :=
  if z < 0 then "-" ++ Nat.repr z.natAbs else Nat.repr z.natAbs

/-- The manipulator `std::setw(w)`: the next output is padded on the left with
spaces to width `w` (never truncated). -/
def setw (w : Nat) (s : String) : String :=
  String.mk (List.replicate (w - s.length) ' ') ++ s

/-- The characters of row `h` after the `" |"`, one per bin (source lines
64-66). -/
def rowCells (histogram : List Int) (maxCount h : Int) : List Char :=
  histogram.map (cell maxCount h)

/-- One histogram row as printed (source lines 62-67): the label in width 8,
`" |"`, the cells, a newline. -/
def renderRow (histogram : List Int) (maxCount h : Int) : String :=
  setw 8 (formatInt (rowLabel maxCount h)) ++ " |" ++
    String.mk (rowCells histogram maxCount h) ++ "\n"

/-- The loop `for (int h = start; h >= 0; --h)` collecting the rows printed. -/
def rowsFrom (histogram : List Int) (maxCount : Int) : Nat → List String
  | 0 => [renderRow histogram maxCount 0]
  | h + 1 => renderRow histogram maxCount ((h : Int) + 1) :: rowsFrom histogram maxCount h

/-- The histogram rows printed by `print_histogram` (source lines 58-68), from
`h = height` down to `h = 0`; `none` on an empty histogram. -/
def histogramRows (histogram : List Int) : Option (List String) :=
  match max_count histogram with
  | some maxCount => some (rowsFrom histogram maxCount 20)
  | none => none

/-- The counters are in the range in which the products `count * height` of the
rendering loop do not overflow an `int`: `0 <= count` and
`count * 20 < 2^31`. -/
def InRenderRange (histogram : List Int) : Prop :=
  ∀ c ∈ histogram, 0 ≤ c ∧ c * 20 < 2 ^ 31

/-! ## The source: `analyze_generator` -/

/-- What one run of `analyze_generator` does with its sample buffer: the
generator (with the normal-distribution adapter) as left by the draws, the
sequence passed to `calculate_statistics` and its result, and the sequence
passed to `print_histogram` and the histogram built from it.  Timing and the
printed report are not modelled. -/
structure Run (σ : Type) where
  gen : σ
  statsInput : List F64
  stats : Option Statistics
  histogramInput : List F64
  histogram : Option (List Int)

/-- The draw loop (source lines 84-86): `samples` times, `dist(gen)` is called
and its value appended to `numbers`.  `draw` is one call `dist(gen)`, returning
the value and the advanced generator and adapter. -/
def drawLoop {σ : Type} (draw : σ → F64 × σ) : Nat → σ → List F64 → List F64 × σ
  | 0, gen, numbers => (numbers, gen)
  | remaining + 1, gen, numbers =>
    drawLoop draw remaining (draw gen).2 (numbers ++ [(draw gen).1])

/-- The function `analyze_generator` (source lines 76-105), for the default
bin count `50` of `print_histogram`. -/
def analyze_generator {σ : Type} (draw : σ → F64 × σ) (gen : σ) (samples : Nat) : Run σ :=
  let drawn := drawLoop draw samples gen []
  let numbers := drawn.1
  { gen := drawn.2,
    statsInput := numbers,
    stats := calculate_statistics numbers,
    histogramInput := numbers,
    histogram := buildHistogram numbers 50 }

/-- Specification: the generator after `i` draws. -/
def genAfter {σ : Type} (draw : σ → F64 × σ) (gen : σ) : Nat → σ
  | 0 => gen
  | i + 1 => (draw (genAfter draw gen i)).2

/-- Specification: the `i`-th value drawn (index from 0). -/
def nthDraw {σ : Type} (draw : σ → F64 × σ) (gen : σ) (i : Nat) : F64 :=
  (draw (genAfter draw gen i)).1

/-! ## The deviations form of the variance -/

/-- Specification, in double arithmetic: the population variance in its
deviations form `(1/n) * sum_i (x_i - mean)^2`, summed in order and divided by
the population size as the code divides its sum of squares. -/
def specVarianceDev (data : List F64) : F64 :=
  fdiv (partialSum (fun i => fmul (fsub (sample data i) (meanOf data))
      (fsub (sample data i) (meanOf data))) data.length) (ofNat data.length)

/-- The samples `1.0, 2.0, 3.0`. -/
def oneTwoThree : List F64 := [ofNat 1, ofNat 2, ofNat 3]

/-! ## Rounding lemmas -/

theorem levelsAux_spec (fuel : Nat) : ∀ i t, t < 2 ^ (52 + 2 ^ (i + fuel)) →
    t < 2 ^ (52 + 2 ^ levelsAux fuel i t) := by
  induction fuel with
  | zero => intro i t h; simpa [levelsAux] using h
  | succ f ih =>
    intro i t h
    unfold levelsAux
    by_cases hc : t < 2 ^ (52 + 2 ^ i)
    · rw [if_pos hc]; exact hc
    · rw [if_neg hc]
      apply ih
      have : i + 1 + f = i + (f + 1) := by omega
      rw [this]; exact h

theorem levels_spec (t : Nat) : t < 2 ^ (52 + 2 ^ levels t) := by
  apply levelsAux_spec
  have h1 : t < 2 ^ t := Nat.lt_two_pow t
  have h2 : (2:Nat) ^ t ≤ 2 ^ (52 + 2 ^ (0 + t)) := by
    apply Nat.pow_le_pow_right (by decide)
    have : t < 2 ^ (0 + t) := by simpa using Nat.lt_two_pow t
    omega
  omega

theorem ulpExpAux_spec (i : Nat) : ∀ t, t < 2 ^ (52 + 2 ^ i) →
    t < 2 ^ (53 + ulpExpAux i t) ∧ (ulpExpAux i t ≠ 0 → 2 ^ (52 + ulpExpAux i t) ≤ t) := by
  induction i with
  | zero =>
    intro t h
    simp only [ulpExpAux]
    exact ⟨by simpa using h, fun hc => absurd rfl hc⟩
  | succ i ih =>
    intro t h
    unfold ulpExpAux
    have hpos : 0 < 2 ^ 2 ^ i := Nat.two_pow_pos _
    by_cases hc : 2 ^ (52 + 2 ^ i) ≤ t
    · rw [if_pos hc]
      have hpre : t / 2 ^ 2 ^ i < 2 ^ (52 + 2 ^ i) := by
        rw [Nat.div_lt_iff_lt_mul hpos, ← Nat.pow_add]
        have : 52 + 2 ^ i + 2 ^ i = 52 + 2 ^ (i + 1) := by rw [Nat.pow_succ]; omega
        rw [this]; exact h
      obtain ⟨h1, h2⟩ := ih _ hpre
      set r := ulpExpAux i (t / 2 ^ 2 ^ i) with hr
      constructor
      · rw [Nat.div_lt_iff_lt_mul hpos, ← Nat.pow_add] at h1
        have : 53 + r + 2 ^ i = 53 + (2 ^ i + r) := by omega
        rw [this] at h1; exact h1
      · intro _
        by_cases hr0 : r = 0
        · rw [hr0]; simpa using hc
        · have := h2 hr0
          rw [Nat.le_div_iff_mul_le hpos, ← Nat.pow_add] at this
          have e : 52 + r + 2 ^ i = 52 + (2 ^ i + r) := by omega
          rw [e] at this; exact this
    · rw [if_neg hc]
      exact ih t (by omega)

theorem ulpExp_lt (t : Nat) : t < 2 ^ (53 + ulpExp t) := (ulpExpAux_spec _ t (levels_spec t)).1

theorem ulpExp_le (t : Nat) (h : ulpExp t ≠ 0) : 2 ^ (52 + ulpExp t) ≤ t :=
  (ulpExpAux_spec _ t (levels_spec t)).2 h

theorem ulpExp_mono {s t : Nat} (h : s ≤ t) : ulpExp s ≤ ulpExp t := by
  by_contra hc
  have hlt : ulpExp t < ulpExp s := by omega
  have h1 := ulpExp_le s (by omega)
  have h2 := ulpExp_lt t
  have h3 : (2:Nat) ^ (53 + ulpExp t) ≤ 2 ^ (52 + ulpExp s) :=
    Nat.pow_le_pow_right (by norm_num) (by omega)
  omega

theorem ulpExp_eq_zero {t : Nat} (h : t < 2 ^ 53) : ulpExp t = 0 := by
  by_contra hc
  have h1 := ulpExp_le t hc
  have h3 : (2:Nat) ^ 53 ≤ 2 ^ (52 + ulpExp t) :=
    Nat.pow_le_pow_right (by norm_num) (by omega)
  omega

theorem rne_ge (a b : Nat) : a / b ≤ rne a b := by
  unfold rne
  simp only
  split_ifs <;> omega

theorem rne_le_of_le_mul {a b m : Nat} (hb : 0 < b) (h : a ≤ m * b) : rne a b ≤ m := by
  have hq : a / b ≤ m := by
    calc a / b ≤ m * b / b := Nat.div_le_div_right h
      _ = m := Nat.mul_div_cancel _ hb
  unfold rne
  simp only
  by_cases hr : a % b = 0
  · simp [hr, hb, hq]
  · have hlt : a / b < m := by
      by_contra hc
      have hm : a / b = m := by omega
      have := Nat.div_add_mod a b
      rw [hm] at this
      have : b * m = m * b := Nat.mul_comm _ _
      omega
    split_ifs <;> omega

theorem le_roundMag {r a b : Nat} (hb : 0 < b) (hr : 2 ^ ulpExp r ∣ r) (h : r * b ≤ a) :
    r ≤ roundMag a b := by
  unfold roundMag
  simp only
  have hrt : r ≤ a / b := (Nat.le_div_iff_mul_le hb).2 h
  have hj := ulpExp_mono hrt
  set j := ulpExp (a / b) with hjdef
  have hdd : a / (b * 2 ^ j) = a / b / 2 ^ j := (Nat.div_div_eq_div_mul a b (2 ^ j)).symm
  have hpos : 0 < 2 ^ j := Nat.two_pow_pos j
  rcases Nat.lt_or_ge (ulpExp r) j with hlt | hge
  · have hj0 : j ≠ 0 := by omega
    have h1 := ulpExp_le (a / b) (by rw [← hjdef]; exact hj0)
    rw [← hjdef] at h1
    have h2 := ulpExp_lt r
    have h3 : (2:Nat) ^ (53 + ulpExp r) ≤ 2 ^ (52 + j) :=
      Nat.pow_le_pow_right (by norm_num) (by omega)
    have h4 : 2 ^ 52 ≤ a / (b * 2 ^ j) := by
      rw [hdd, Nat.le_div_iff_mul_le hpos, ← Nat.pow_add]
      exact h1
    have h5 := rne_ge a (b * 2 ^ j)
    calc r ≤ 2 ^ (52 + j) := by omega
      _ = 2 ^ 52 * 2 ^ j := Nat.pow_add _ _ _
      _ ≤ rne a (b * 2 ^ j) * 2 ^ j := Nat.mul_le_mul_right _ (le_trans h4 h5)
  · have hjr : ulpExp r = j := by omega
    rw [hjr] at hr
    obtain ⟨m, hm⟩ := hr
    have h5 := rne_ge a (b * 2 ^ j)
    have h6 : m ≤ a / (b * 2 ^ j) := by
      rw [Nat.le_div_iff_mul_le (Nat.mul_pos hb hpos)]
      calc m * (b * 2 ^ j) = (2 ^ j * m) * b := by ring
        _ = r * b := by rw [hm]
        _ ≤ a := h
    calc r = m * 2 ^ j := by rw [hm]; ring
      _ ≤ rne a (b * 2 ^ j) * 2 ^ j := Nat.mul_le_mul_right _ (le_trans h6 h5)

theorem roundMag_le {r a b : Nat} (hb : 0 < b) (hr : 2 ^ ulpExp r ∣ r) (h : a ≤ r * b) :
    roundMag a b ≤ r := by
  unfold roundMag
  simp only
  have hrt : a / b ≤ r := by
    calc a / b ≤ r * b / b := Nat.div_le_div_right h
      _ = r := Nat.mul_div_cancel _ hb
  have hj := ulpExp_mono hrt
  set j := ulpExp (a / b) with hjdef
  have hpos : 0 < 2 ^ j := Nat.two_pow_pos j
  have hdvd : 2 ^ j ∣ r := dvd_trans (Nat.pow_dvd_pow 2 hj) hr
  obtain ⟨m, hm⟩ := hdvd
  have h1 : rne a (b * 2 ^ j) ≤ m := by
    apply rne_le_of_le_mul (Nat.mul_pos hb hpos)
    calc a ≤ r * b := h
      _ = m * (b * 2 ^ j) := by rw [hm]; ring
  calc rne a (b * 2 ^ j) * 2 ^ j ≤ m * 2 ^ j := Nat.mul_le_mul_right _ h1
    _ = r := by rw [hm]; ring

theorem roundMag_exact {r b : Nat} (hb : 0 < b) (hr : 2 ^ ulpExp r ∣ r) :
    roundMag (r * b) b = r :=
  le_antisymm (roundMag_le hb hr (le_refl _)) (le_roundMag hb hr (le_refl _))

theorem flt_irrefl (a : F64) : flt a a = false := by
  cases a with
  | nan => rfl
  | inf s => cases s <;> rfl
  | fin s k => simp [flt]

theorem flt_trans {a b c : F64} (h1 : flt a b = true) (h2 : flt b c = true) : flt a c = true := by
  cases a <;> cases b <;> cases c <;> simp_all [flt]
  omega

theorem foldl_min_spec (xs : List F64) : ∀ (x : F64) (seen : List F64),
    x ∈ seen → (∀ v ∈ seen, flt v x = false) →
    (xs.foldl (fun smallest v => if flt v smallest then v else smallest) x) ∈ seen ++ xs ∧
    ∀ v ∈ seen ++ xs, flt v (xs.foldl (fun smallest v => if flt v smallest then v else smallest) x) = false := by
  induction xs with
  | nil => intro x seen hx h; simpa using ⟨hx, h⟩
  | cons y ys ih =>
    intro x seen hx h
    simp only [List.foldl_cons]
    have hs : seen ++ y :: ys = (seen ++ [y]) ++ ys := by simp
    rw [hs]
    by_cases hy : flt y x = true
    · rw [if_pos hy]
      apply ih y (seen ++ [y]) (by simp)
      intro v hv
      rcases List.mem_append.1 hv with hv | hv
      · by_contra hc
        have hvy : flt v y = true := by simpa using hc
        have := flt_trans hvy hy
        rw [h v hv] at this
        exact Bool.false_ne_true this
      · have : v = y := by simpa using hv
        rw [this]; exact flt_irrefl y
    · rw [if_neg hy]
      apply ih x (seen ++ [y]) (by simp [hx])
      intro v hv
      rcases List.mem_append.1 hv with hv | hv
      · exact h v hv
      · have : v = y := by simpa using hv
        rw [this]; simpa using hy

theorem min_element_spec {data : List F64} {m : F64} (h : min_element data = some m) :
    m ∈ data ∧ ∀ v ∈ data, flt v m = false := by
  cases data with
  | nil => simp [min_element] at h
  | cons x xs =>
    simp only [min_element, Option.some.injEq] at h
    have := foldl_min_spec xs x [x] (by simp) (by intro v hv; have : v = x := by simpa using hv
                                                  rw [this]; exact flt_irrefl x)
    rw [h] at this
    simpa using this

theorem foldl_max_spec (xs : List F64) : ∀ (x : F64) (seen : List F64),
    x ∈ seen → (∀ v ∈ seen, flt x v = false) →
    (xs.foldl (fun largest v => if flt largest v then v else largest) x) ∈ seen ++ xs ∧
    ∀ v ∈ seen ++ xs, flt (xs.foldl (fun largest v => if flt largest v then v else largest) x) v = false := by
  induction xs with
  | nil => intro x seen hx h; simpa using ⟨hx, h⟩
  | cons y ys ih =>
    intro x seen hx h
    simp only [List.foldl_cons]
    have hs : seen ++ y :: ys = (seen ++ [y]) ++ ys := by simp
    rw [hs]
    by_cases hy : flt x y = true
    · rw [if_pos hy]
      apply ih y (seen ++ [y]) (by simp)
      intro v hv
      rcases List.mem_append.1 hv with hv | hv
      · by_contra hc
        have hvy : flt y v = true := by simpa using hc
        have := flt_trans hy hvy
        rw [h v hv] at this
        exact Bool.false_ne_true this
      · have : v = y := by simpa using hv
        rw [this]; exact flt_irrefl y
    · rw [if_neg hy]
      apply ih x (seen ++ [y]) (by simp [hx])
      intro v hv
      rcases List.mem_append.1 hv with hv | hv
      · exact h v hv
      · have : v = y := by simpa using hv
        rw [this]; simpa using hy

theorem max_element_spec {data : List F64} {m : F64} (h : max_element data = some m) :
    m ∈ data ∧ ∀ v ∈ data, flt m v = false := by
  cases data with
  | nil => simp [max_element] at h
  | cons x xs =>
    simp only [max_element, Option.some.injEq] at h
    have := foldl_max_spec xs x [x] (by simp) (by intro v hv; have : v = x := by simpa using hv
                                                  rw [this]; exact flt_irrefl x)
    rw [h] at this
    simpa using this

theorem unit_eq : unit = 2 ^ 1074 := by unfold unit; rfl

theorem overflowMag_eq : overflowMag = 2 ^ 2098 := by unfold overflowMag; rfl

theorem two_pow_pos (e : Nat) : 0 < (2 : Nat) ^ e := Nat.two_pow_pos e

theorem two_pow_lt_two_pow {a b : Nat} (h : a < b) : (2 : Nat) ^ a < 2 ^ b :=
  Nat.pow_lt_pow_right (by decide) h

theorem two_pow_dvd_two_pow {a b : Nat} (h : a ≤ b) : (2 : Nat) ^ a ∣ 2 ^ b :=
  Nat.pow_dvd_pow 2 h

theorem two_pow_dvd_mul (n e : Nat) : (2 : Nat) ^ e ∣ n * 2 ^ e := Dvd.intro_left n rfl

theorem unit_pos : 0 < unit := by rw [unit_eq]; exact two_pow_pos 1074

theorem overflowMag_pos : 0 < overflowMag := by rw [overflowMag_eq]; exact two_pow_pos 2098

theorem mul_two_pow_lt (n e : Nat) (h : n < 2 ^ 53) : n * 2 ^ e < 2 ^ (53 + e) := by
  rw [Nat.pow_add]
  exact Nat.mul_lt_mul_of_pos_right h (Nat.two_pow_pos e)

theorem roundMag_zero {b : Nat} (hb : 0 < b) : roundMag 0 b = 0 := by
  have h := @roundMag_le 0 0 b hb (by simp) (by simp)
  omega

theorem roundTo_ge {sl s : Bool} {kl a b : Nat} (hb : 0 < b) (hr : Representable kl)
    (h : sval sl kl * (b : Int) ≤ sval s a) : fle (F64.fin sl kl) (roundTo s a b) = true := by
  unfold roundTo ofMag
  cases sl <;> cases s <;> simp only [sval, if_true, if_false, Bool.false_eq_true] at h
  · have h' : kl * b ≤ a := by exact_mod_cast h
    have := le_roundMag hb hr.2 h'
    split_ifs <;> simp [fle, sval]
    omega
  · have hk : kl * b = 0 ∧ a = 0 := by
      have h1 : ((kl * b : Nat) : Int) ≤ -(a : Int) := by exact_mod_cast h
      omega
    rw [hk.2, roundMag_zero hb]
    have hk0 : kl = 0 := by
      rcases Nat.mul_eq_zero.1 hk.1 with h0 | h0
      · exact h0
      · omega
    subst hk0
    rw [if_pos overflowMag_pos]
    simp [fle, sval]
  · split_ifs <;> simp [fle, sval]
    omega
  · have h' : a ≤ kl * b := by
      have h1 : -((kl * b : Nat) : Int) ≤ -(a : Int) := by
        have : -((kl : Int)) * (b : Int) = -((kl * b : Nat) : Int) := by push_cast; ring
        rw [← this]; exact h
      omega
    have := roundMag_le hb hr.2 h'
    have hlt : roundMag a b < overflowMag := lt_of_le_of_lt this hr.1
    rw [if_pos hlt]
    simp [fle, sval]; omega

theorem roundTo_le {sh s : Bool} {kh a b : Nat} (hb : 0 < b) (hr : Representable kh)
    (h : sval s a ≤ sval sh kh * (b : Int)) : fle (roundTo s a b) (F64.fin sh kh) = true := by
  unfold roundTo ofMag
  cases sh <;> cases s <;> simp only [sval, if_true, if_false, Bool.false_eq_true] at h
  · have h' : a ≤ kh * b := by exact_mod_cast h
    have := roundMag_le hb hr.2 h'
    have hlt : roundMag a b < overflowMag := lt_of_le_of_lt this hr.1
    rw [if_pos hlt]
    simp [fle, sval]; omega
  · split_ifs <;> simp [fle, sval]
    omega
  · have hk : kh * b = 0 ∧ a = 0 := by
      have h1 : (a : Int) ≤ -((kh * b : Nat) : Int) := by
        have : -((kh : Int)) * (b : Int) = -((kh * b : Nat) : Int) := by push_cast; ring
        rw [← this]; exact h
      omega
    rw [hk.2, roundMag_zero hb]
    have hk0 : kh = 0 := by
      rcases Nat.mul_eq_zero.1 hk.1 with h0 | h0
      · exact h0
      · omega
    subst hk0
    rw [if_pos overflowMag_pos]
    simp [fle, sval]
  · have h' : kh * b ≤ a := by
      have h1 : -(a : Int) ≤ -((kh * b : Nat) : Int) := by
        have : -((kh : Int)) * (b : Int) = -((kh * b : Nat) : Int) := by push_cast; ring
        rw [← this]; exact h
      omega
    have := le_roundMag hb hr.2 h'
    split_ifs <;> simp [fle, sval]
    omega

theorem roundTo_exact {s : Bool} {k b : Nat} (hb : 0 < b) (hr : Representable k) :
    roundTo s (k * b) b = F64.fin s k := by
  unfold roundTo ofMag
  rw [roundMag_exact hb hr.2, if_pos hr.1]

theorem ulpExp_le_of_lt {t e : Nat} (h : t < 2 ^ (53 + e)) : ulpExp t ≤ e := by
  by_contra hc
  have h1 := ulpExp_le t (by omega)
  have h3 : (2:Nat) ^ (53 + e) ≤ 2 ^ (52 + ulpExp t) :=
    Nat.pow_le_pow_right (by norm_num) (by omega)
  omega

theorem representable_mul_unit {n : Nat} (h : n < 2 ^ 53) : Representable (n * unit) := by
  have hlt : n * unit < 2 ^ (53 + 1074) := by
    rw [unit_eq]
    exact mul_two_pow_lt n 1074 h
  constructor
  · rw [overflowMag_eq]
    exact lt_trans hlt (two_pow_lt_two_pow (by decide))
  · refine dvd_trans (two_pow_dvd_two_pow (ulpExp_le_of_lt hlt)) ?_
    rw [unit_eq]
    exact two_pow_dvd_mul n 1074

theorem ofNat_exact {n : Nat} (h : n < 2 ^ 53) : ofNat n = F64.fin false (n * unit) := by
  have := @roundTo_exact false (n * unit) 1 (by norm_num) (representable_mul_unit h)
  simpa [ofNat] using this

theorem sval_mul (s : Bool) (k u : Nat) : sval s (k * u) = sval s k * (u : Int) := by
  cases s <;> simp [sval]

theorem min_element_isSome {data : List F64} (h : data ≠ []) : ∃ m, min_element data = some m := by
  cases data with
  | nil => exact absurd rfl h
  | cons x xs => exact ⟨_, rfl⟩

theorem max_element_isSome {data : List F64} (h : data ≠ []) : ∃ m, max_element data = some m := by
  cases data with
  | nil => exact absurd rfl h
  | cons x xs => exact ⟨_, rfl⟩

theorem length_mul_le_sum (data : List F64) (c : Int) (h : ∀ v ∈ data, c ≤ v.units) :
    (data.length : Int) * c ≤ (data.map F64.units).sum := by
  induction data with
  | nil => simp
  | cons x xs ih =>
    have h1 := h x (by simp)
    have h2 := ih (fun v hv => h v (by simp [hv]))
    simp only [List.length_cons, List.map_cons, List.sum_cons]
    push_cast
    linarith

theorem sum_le_length_mul (data : List F64) (c : Int) (h : ∀ v ∈ data, v.units ≤ c) :
    (data.map F64.units).sum ≤ (data.length : Int) * c := by
  induction data with
  | nil => simp
  | cons x xs ih =>
    have h1 := h x (by simp)
    have h2 := ih (fun v hv => h v (by simp [hv]))
    simp only [List.length_cons, List.map_cons, List.sum_cons]
    push_cast
    linarith

theorem units_le_of_not_flt {a b : F64} (ha : a.isFinite = true) (hb : b.isFinite = true)
    (h : flt a b = false) : b.units ≤ a.units := by
  cases a <;> cases b <;> simp_all [F64.isFinite, F64.units, flt]

theorem fdiv_ofNat {s : Bool} {K n : Nat} (hn : 0 < n) (hlen : n < 2 ^ 53) :
    fdiv (F64.fin s K) (ofNat n) = roundTo s (K * unit) (n * unit) := by
  rw [ofNat_exact hlen]
  have hne : n * unit ≠ 0 := Nat.pos_iff_ne_zero.1 (Nat.mul_pos hn unit_pos)
  simp [fdiv, hne]

/-- The mean computed from an exact sum lies between any two finite doubles that
bound every sample. -/
theorem mean_between {data : List F64} {lo hi : F64} (hne : data ≠ [])
    (hlen : data.length < 2 ^ 53) (hex : SumExact data)
    (hlo : lo.WF ∧ lo.isFinite = true) (hhi : hi.WF ∧ hi.isFinite = true)
    (hl : ∀ v ∈ data, lo.units ≤ v.units) (hh : ∀ v ∈ data, v.units ≤ hi.units) :
    fle lo (fdiv (accumulate data zero) (ofNat data.length)) = true ∧
    fle (fdiv (accumulate data zero) (ofNat data.length)) hi = true := by
  have hn : 0 < data.length := List.length_pos.2 hne
  obtain ⟨hf, hs⟩ := hex
  have h1 := length_mul_le_sum data _ hl
  have h2 := sum_le_length_mul data _ hh
  rw [← hs] at h1 h2
  cases hacc : accumulate data zero with
  | nan => rw [hacc] at hf; simp [F64.isFinite] at hf
  | inf s => rw [hacc] at hf; simp [F64.isFinite] at hf
  | fin s K =>
    rw [hacc] at h1 h2
    rw [fdiv_ofNat hn hlen]
    have hu : (0 : Int) ≤ (unit : Int) := Int.ofNat_nonneg _
    cases lo with
    | nan => simp [F64.isFinite] at hlo
    | inf _ => simp [F64.isFinite] at hlo
    | fin sl kl =>
      cases hi with
      | nan => simp [F64.isFinite] at hhi
      | inf _ => simp [F64.isFinite] at hhi
      | fin sh kh =>
        simp only [F64.units] at h1 h2
        constructor
        · apply roundTo_ge (Nat.mul_pos hn unit_pos) hlo.1
          rw [sval_mul]
          push_cast
          calc sval sl kl * ((data.length : Int) * (unit : Int))
              = ((data.length : Int) * sval sl kl) * (unit : Int) := by ring
            _ ≤ sval s K * (unit : Int) := Int.mul_le_mul_of_nonneg_right h1 hu
        · apply roundTo_le (Nat.mul_pos hn unit_pos) hhi.1
          rw [sval_mul]
          push_cast
          calc sval s K * (unit : Int)
              ≤ ((data.length : Int) * sval sh kh) * (unit : Int) := Int.mul_le_mul_of_nonneg_right h2 hu
            _ = sval sh kh * ((data.length : Int) * (unit : Int)) := by ring

/-- The record `calculate_statistics` returns on a non-empty sequence, field by
field in terms of the locals of the source. -/
theorem calculate_statistics_eq {data : List F64} {m M : F64}
    (hm : min_element data = some m) (hM : max_element data = some M) :
    calculate_statistics data = some
      { mean := meanOf data, stddev := stddevOf data, min := m, max := M,
        skewness := fdiv (momentsOf data).1 (ofNat data.length),
        kurtosis := fsub (fdiv (momentsOf data).2 (ofNat data.length)) three } := by
  simp only [calculate_statistics, hm, hM, meanOf, varianceOf, stddevOf, momentsOf]

/-! ## C1: `min <= mean <= max` -/

/-- C1, counterexample.  On the samples `[0.09999999999999999, 0.1, 0.1]`
(the doubles `0x1.9999999999999p-4` and `0x1.999999999999ap-4`, so `min < max`)
the running sum rounds up to `0x1.3333333333334p-2` and the returned mean is
`0x1.999999999999bp-4`, one unit in the last place above the returned max:
`mean <= max` fails.  The same happens on the constant sequence
`[0.1, 0.1, 0.1]`. -/
theorem c1_mean_exceeds_max :
    (∀ x ∈ [belowTenth, tenth, tenth], x.WF) ∧
    belowTenth = F64.fin false (0x19999999999999 * 2 ^ 1018) ∧
    tenth = F64.fin false (0x1999999999999a * 2 ^ 1018) ∧
    (calculate_statistics [belowTenth, tenth, tenth]).map
        (fun r => (r.min, r.max, r.mean, flt r.min r.max, fle r.mean r.max))
      = some (belowTenth, tenth, F64.fin false (0x1999999999999b * 2 ^ 1018), true, false) ∧
    (calculate_statistics [tenth, tenth, tenth]).map
        (fun r => (r.max, r.mean, fle r.mean r.max))
      = some (tenth, F64.fin false (0x1999999999999b * 2 ^ 1018), false) := by
  decide!

/-- C1, amended.  For every non-empty sequence of fewer than `2^53` finite
samples whose floating-point sum incurs no rounding error, the record returned
by `calculate_statistics` satisfies `min <= mean <= max` (the rounding of the
final division cannot move the mean past a sample). -/
theorem c1_min_le_mean_le_max_of_exact_sum (data : List F64) (hne : data ≠ [])
    (hlen : data.length < 2 ^ 53) (hfin : ∀ x ∈ data, x.WF ∧ x.isFinite = true)
    (hex : SumExact data) :
    ∃ r, calculate_statistics data = some r ∧
      fle r.min r.mean = true ∧ fle r.mean r.max = true := by
  obtain ⟨m, hm⟩ := min_element_isSome hne
  obtain ⟨M, hM⟩ := max_element_isSome hne
  obtain ⟨hm1, hm2⟩ := min_element_spec hm
  obtain ⟨hM1, hM2⟩ := max_element_spec hM
  have hb := @mean_between data m M hne hlen hex (hfin m hm1) (hfin M hM1)
    (fun v hv => units_le_of_not_flt (hfin v hv).2 (hfin m hm1).2 (hm2 v hv))
    (fun v hv => units_le_of_not_flt (hfin M hM1).2 (hfin v hv).2 (hM2 v hv))
  exact ⟨_, calculate_statistics_eq hm hM, hb.1, hb.2⟩

/-- C1, witness of the amended statement on `[1, 2, 3, 4, 5]`. -/
theorem c1_min_le_mean_le_max_witness :
    ∃ r, calculate_statistics [ofNat 1, ofNat 2, ofNat 3, ofNat 4, ofNat 5] = some r ∧
      fle r.min r.mean = true ∧ fle r.mean r.max = true :=
  c1_min_le_mean_le_max_of_exact_sum [ofNat 1, ofNat 2, ofNat 3, ofNat 4, ofNat 5]
    (by simp) (by decide!) (by decide!) (by decide!)

/-! ## C2: `stddev >= 0` -/

theorem fsqrt_fin (s : Bool) (k : Nat) : fsqrt (F64.fin s k) =
    if k = 0 then F64.fin s 0 else if s then F64.nan else ofMag false (sqrtMag k) := rfl

theorem fle_zero_ofMag (k : Nat) : fle zero (ofMag false k) = true := by
  unfold ofMag
  split_ifs <;> simp [fle, zero, sval]

/-- The square root is non-negative exactly when its argument is; on a negative
argument it is NaN. -/
theorem fle_zero_fsqrt (v : F64) : fle zero (fsqrt v) = fle zero v := by
  cases v with
  | nan => rfl
  | inf s => cases s <;> rfl
  | fin s k =>
    rw [fsqrt_fin]
    by_cases hk : k = 0
    · rw [if_pos hk, hk]
    · rw [if_neg hk]
      cases s
      · rw [if_neg (by simp), fle_zero_ofMag]
        simp [fle, zero, sval]
      · simp [fle, zero, sval]; omega

theorem fsqrt_nan_or_nonneg (v : F64) : fsqrt v = F64.nan ∨ fle zero (fsqrt v) = true := by
  cases v with
  | nan => exact Or.inl rfl
  | inf s => cases s <;> simp [fsqrt, fle, zero]
  | fin s k =>
    rw [fsqrt_fin]
    by_cases hk : k = 0
    · rw [if_pos hk]; right; simp [fle, zero, sval]
    · rw [if_neg hk]
      cases s
      · right; simpa using fle_zero_ofMag _
      · left; rfl

theorem flt_false_of_fle_zero {v : F64} (h : fle zero v = true) : flt v zero = false := by
  cases v with
  | nan => rfl
  | inf s => cases s <;> simp_all [fle, flt, zero]
  | fin s k => simp_all [fle, flt, zero]

/-- C2, counterexample.  On `[0.1, 0.1, 0.1]` the computed variance
`(sum of squares)/n - mean^2` is `-2^-59` (negative, by rounding), its square root
is NaN, and `stddev >= 0` is false. -/
theorem c2_stddev_nan :
    (calculate_statistics [tenth, tenth, tenth]).map
        (fun r => (r.stddev, fle zero r.stddev))
      = some (F64.nan, false) ∧
    varianceOf [tenth, tenth, tenth] = F64.fin true (2 ^ 1015) := by
  decide!

/-- C2, amended.  For every non-empty sample sequence the returned stddev is
never negative: `stddev >= 0` holds exactly when the computed variance
`(sum of squares)/n - mean^2` is `>= 0`, and otherwise (rounding can make the
computed variance negative) stddev is NaN. -/
theorem c2_stddev_nonneg_or_nan (data : List F64) (hne : data ≠ []) :
    ∃ r, calculate_statistics data = some r ∧
      fle zero r.stddev = fle zero (varianceOf data) ∧
      (r.stddev = F64.nan ∨ fle zero r.stddev = true) ∧
      flt r.stddev zero = false := by
  obtain ⟨m, hm⟩ := min_element_isSome hne
  obtain ⟨M, hM⟩ := max_element_isSome hne
  refine ⟨_, calculate_statistics_eq hm hM, fle_zero_fsqrt _, fsqrt_nan_or_nonneg _, ?_⟩
  rcases fsqrt_nan_or_nonneg (varianceOf data) with h | h
  · show flt (stddevOf data) zero = false
    unfold stddevOf
    rw [h]; rfl
  · exact flt_false_of_fle_zero h

/-- C2, witness of the amended statement on `[1, 2, 3, 4, 5]`. -/
theorem c2_stddev_nonneg_or_nan_witness :
    ∃ r, calculate_statistics [ofNat 1, ofNat 2, ofNat 3, ofNat 4, ofNat 5] = some r ∧
      fle zero r.stddev = fle zero (varianceOf [ofNat 1, ofNat 2, ofNat 3, ofNat 4, ofNat 5]) ∧
      (r.stddev = F64.nan ∨ fle zero r.stddev = true) ∧
      flt r.stddev zero = false :=
  c2_stddev_nonneg_or_nan [ofNat 1, ofNat 2, ofNat 3, ofNat 4, ofNat 5] (by simp)

/-! ## C3: the mean and stddev formulas -/

theorem partialSum_congr {t u : Nat → F64} : ∀ k, (∀ i, i < k → t i = u i) →
    partialSum t k = partialSum u k := by
  intro k
  induction k with
  | zero => intro _; rfl
  | succ k ih =>
    intro h
    simp only [partialSum]
    rw [ih (fun i hi => h i (Nat.lt_succ_of_lt hi)), h k (Nat.lt_succ_self k)]

theorem sample_append_left (l : List F64) (a : F64) {i : Nat} (h : i < l.length) :
    sample (l ++ [a]) i = sample l i := by
  simp [sample, List.getD, List.getElem?_append_left h]

theorem sample_append_length (l : List F64) (a : F64) : sample (l ++ [a]) l.length = a := by
  simp [sample, List.getD]

/-- A left fold that adds `g x` for each sample is the index-ordered sum of the
terms `g x_i`. -/
theorem foldl_fadd_eq_partialSum (g : F64 → F64) (data : List F64) :
    data.foldl (fun acc x => fadd acc (g x)) zero
      = partialSum (fun i => g (sample data i)) data.length := by
  induction data using List.reverseRecOn with
  | nil => rfl
  | append_singleton l a ih =>
    rw [List.foldl_append, List.length_append]
    simp only [List.foldl_cons, List.foldl_nil, List.length_singleton, partialSum]
    rw [ih, sample_append_length]
    congr 1
    exact partialSum_congr _ (fun i hi => by rw [sample_append_left l a hi])

theorem accumulate_eq_partialSum (data : List F64) :
    accumulate data zero = partialSum (sample data) data.length := by
  have := foldl_fadd_eq_partialSum (fun x => x) data
  simpa [accumulate] using this

theorem inner_product_self (data : List F64) : ∀ init,
    inner_product data data init = data.foldl (fun acc x => fadd acc (fmul x x)) init := by
  induction data with
  | nil => intro init; rfl
  | cons x xs ih =>
    intro init
    have := ih (fadd init (fmul x x))
    simpa [inner_product] using this

theorem inner_product_eq_partialSum (data : List F64) :
    inner_product data data zero
      = partialSum (fun i => fmul (sample data i) (sample data i)) data.length := by
  rw [inner_product_self]
  exact foldl_fadd_eq_partialSum (fun x => fmul x x) data

theorem meanOf_eq_specMean (data : List F64) : meanOf data = specMean data := by
  unfold meanOf specMean
  rw [accumulate_eq_partialSum]

theorem stddevOf_eq_specStddev (data : List F64) : stddevOf data = specStddev data := by
  unfold stddevOf specStddev varianceOf specVariance
  rw [inner_product_eq_partialSum, meanOf_eq_specMean]

/-- C3.  For every non-empty sample sequence `x_1 .. x_n`, `calculate_statistics`
returns `mean = (sum of x_i) / n` and
`stddev = sqrt((sum of x_i^2) / n - mean^2)`, each operation being the double
operation and the sums taken in index order. -/
theorem c3_mean_stddev_formulas (data : List F64) (hne : data ≠ []) :
    ∃ r, calculate_statistics data = some r ∧
      r.mean = fdiv (partialSum (sample data) data.length) (ofNat data.length) ∧
      r.stddev = fsqrt (fsub
        (fdiv (partialSum (fun i => fmul (sample data i) (sample data i)) data.length)
          (ofNat data.length))
        (fmul r.mean r.mean)) := by
  obtain ⟨m, hm⟩ := min_element_isSome hne
  obtain ⟨M, hM⟩ := max_element_isSome hne
  refine ⟨_, calculate_statistics_eq hm hM, meanOf_eq_specMean data, ?_⟩
  show stddevOf data = _
  rw [stddevOf_eq_specStddev]
  show specStddev data = fsqrt (fsub _ (fmul (meanOf data) (meanOf data)))
  rw [meanOf_eq_specMean]
  rfl

/-- C3, witness on `[1, 2, 3, 4, 5]`. -/
theorem c3_mean_stddev_formulas_witness :
    ∃ r, calculate_statistics [ofNat 1, ofNat 2, ofNat 3, ofNat 4, ofNat 5] = some r ∧
      r.mean = fdiv (partialSum (sample [ofNat 1, ofNat 2, ofNat 3, ofNat 4, ofNat 5]) 5)
        (ofNat 5) ∧
      r.stddev = fsqrt (fsub
        (fdiv (partialSum (fun i => fmul
            (sample [ofNat 1, ofNat 2, ofNat 3, ofNat 4, ofNat 5] i)
            (sample [ofNat 1, ofNat 2, ofNat 3, ofNat 4, ofNat 5] i)) 5)
          (ofNat 5))
        (fmul r.mean r.mean)) :=
  c3_mean_stddev_formulas [ofNat 1, ofNat 2, ofNat 3, ofNat 4, ofNat 5] (by simp)

/-! ## Results of the operations are doubles -/

theorem rne_le_succ (a b : Nat) : rne a b ≤ a / b + 1 := by
  unfold rne
  simp only
  split_ifs <;> omega

theorem roundMag_dvd (a b : Nat) : 2 ^ ulpExp (roundMag a b) ∣ roundMag a b := by
  have hlt := ulpExp_lt (a / b)
  unfold roundMag
  simp only
  set j := ulpExp (a / b) with hj
  have hpos : 0 < 2 ^ j := Nat.two_pow_pos j
  have hq : a / (b * 2 ^ j) < 2 ^ 53 := by
    rw [← Nat.div_div_eq_div_mul, Nat.div_lt_iff_lt_mul hpos, ← Nat.pow_add]
    exact hlt
  have hr := rne_le_succ a (b * 2 ^ j)
  have hr' : rne a (b * 2 ^ j) ≤ 2 ^ 53 := by omega
  rcases Nat.lt_or_ge (rne a (b * 2 ^ j)) (2 ^ 53) with h | h
  · have : rne a (b * 2 ^ j) * 2 ^ j < 2 ^ (53 + j) := by
      rw [Nat.pow_add]
      exact Nat.mul_lt_mul_of_pos_right h hpos
    exact dvd_trans (Nat.pow_dvd_pow 2 (ulpExp_le_of_lt this)) (Dvd.intro_left _ rfl)
  · have he : rne a (b * 2 ^ j) = 2 ^ 53 := le_antisymm hr' h
    rw [he, ← Nat.pow_add]
    have : (2:Nat) ^ (53 + j) < 2 ^ (53 + (j + 1)) :=
      Nat.pow_lt_pow_right (by decide) (by omega)
    exact Nat.pow_dvd_pow 2 (le_trans (ulpExp_le_of_lt this) (by omega))

theorem ofMag_WF {s : Bool} {k : Nat} (h : 2 ^ ulpExp k ∣ k) : (ofMag s k).WF := by
  unfold ofMag
  split_ifs with hk
  · exact ⟨hk, h⟩
  · trivial

theorem roundTo_WF (s : Bool) (a b : Nat) : (roundTo s a b).WF :=
  ofMag_WF (roundMag_dvd a b)

theorem representable_zero : Representable 0 := ⟨overflowMag_pos, by simp⟩

/-- Multiplication returns a double. -/
theorem fmul_WF (a b : F64) : (fmul a b).WF := by
  cases a <;> cases b <;> simp only [fmul] <;> try trivial
  · split_ifs <;> trivial
  · split_ifs <;> trivial
  · exact roundTo_WF _ _ _

/-- Addition returns a double. -/
theorem fadd_WF (a b : F64) : (fadd a b).WF := by
  cases a <;> cases b <;> simp only [fadd] <;> try trivial
  · split_ifs <;> trivial
  · split_ifs
    · exact representable_zero
    · exact roundTo_WF _ _ _

/-- Division returns a double. -/
theorem fdiv_WF (a b : F64) : (fdiv a b).WF := by
  cases a <;> cases b <;> simp only [fdiv] <;> try trivial
  · exact representable_zero
  · split_ifs
    · trivial
    · trivial
    · exact roundTo_WF _ _ _

/-! ## C4: constant sequences -/

theorem foldl_min_replicate (v : F64) (n : Nat) :
    (List.replicate n v).foldl (fun smallest x => if flt x smallest then x else smallest) v = v := by
  induction n with
  | zero => rfl
  | succ n ih => simp [List.replicate_succ, flt_irrefl, ih]

theorem foldl_max_replicate (v : F64) (n : Nat) :
    (List.replicate n v).foldl (fun largest x => if flt largest x then x else largest) v = v := by
  induction n with
  | zero => rfl
  | succ n ih => simp [List.replicate_succ, flt_irrefl, ih]

theorem min_element_replicate (v : F64) (n : Nat) :
    min_element (List.replicate (n + 1) v) = some v := by
  simp [List.replicate_succ, min_element, foldl_min_replicate]

theorem max_element_replicate (v : F64) (n : Nat) :
    max_element (List.replicate (n + 1) v) = some v := by
  simp [List.replicate_succ, max_element, foldl_max_replicate]

theorem sum_units_replicate (n : Nat) (v : F64) :
    ((List.replicate n v).map F64.units).sum = (n : Int) * v.units := by
  simp [List.map_replicate, List.sum_replicate]

theorem inner_product_replicate (v : F64) (n : Nat) : ∀ init,
    inner_product (List.replicate n v) (List.replicate n v) init
      = accumulate (List.replicate n (fmul v v)) init := by
  induction n with
  | zero => intro init; rfl
  | succ n ih =>
    intro init
    have := ih (fadd init (fmul v v))
    simpa [inner_product, accumulate, List.replicate_succ] using this

/-- Dividing the exact `n`-fold multiple of a double by `n` gives the double
back (up to the sign of a zero). -/
theorem fdiv_of_exact_multiple {acc : F64} {t : Bool} {k n : Nat} (hn : 0 < n)
    (hlen : n < 2 ^ 53) (hw : Representable k) (hacc : acc.isFinite = true)
    (hu : acc.units = (n : Int) * sval t k) :
    ∃ s, fdiv acc (ofNat n) = F64.fin s k ∧ sval s k = sval t k := by
  cases acc with
  | nan => simp [F64.isFinite] at hacc
  | inf _ => simp [F64.isFinite] at hacc
  | fin s K =>
    simp only [F64.units] at hu
    have hK : K = k * n := by
      have := congrArg Int.natAbs hu
      cases s <;> cases t <;> simp [sval, Int.natAbs_mul] at this <;> rw [this, Nat.mul_comm]
    refine ⟨s, ?_, ?_⟩
    · rw [fdiv_ofNat hn hlen, hK]
      have : k * n * unit = k * (n * unit) := Nat.mul_assoc _ _ _
      rw [this]
      exact roundTo_exact (Nat.mul_pos hn unit_pos) hw
    · by_cases hk : k = 0
      · subst hk; cases s <;> cases t <;> simp [sval]
      · have hkpos : (0 : Int) < (k : Int) := by omega
        have hnpos : (0 : Int) < (n : Int) := by omega
        have hKpos : (0 : Int) < (K : Int) := by
          rw [hK]; push_cast; exact Int.mul_pos hkpos hnpos
        have hnk : (0 : Int) < (n : Int) * (k : Int) := Int.mul_pos hnpos hkpos
        cases s <;> cases t <;> simp [sval] at hu ⊢ <;> omega

theorem accumulate_replicate_inf (n : Nat) : ∀ init, init = F64.inf false ∨ init.isFinite = true →
    accumulate (List.replicate (n + 1) (F64.inf false)) init = F64.inf false := by
  induction n with
  | zero =>
    intro init h
    rcases h with h | h
    · subst h; rfl
    · cases init <;> simp_all [F64.isFinite, accumulate, fadd]
  | succ n ih =>
    intro init h
    have hstep : fadd init (F64.inf false) = F64.inf false := by
      rcases h with h | h
      · subst h; rfl
      · cases init <;> simp_all [F64.isFinite, fadd]
    have := ih (fadd init (F64.inf false)) (Or.inl hstep)
    rw [List.replicate_succ]
    simpa [accumulate] using this

/-- C4, counterexample.  For `n = 3` and `v = 0.1` the returned mean is
`0x1.999999999999bp-4`, which is not `== v`, and stddev is NaN, which is not
`== 0`. -/
theorem c4_constant_tenth :
    tenth.WF ∧
    (calculate_statistics (List.replicate 3 tenth)).map
        (fun r => (feq r.mean tenth, feq r.stddev zero, r.mean, r.stddev))
      = some (false, false, F64.fin false (0x1999999999999b * 2 ^ 1018), F64.nan) := by
  decide!

/-- C4, amended.  For every `n >= 1` and every value `v`, `calculate_statistics`
on `n` copies of `v` returns min and max equal to the very double `v`; it returns
`mean == v` and `stddev == 0` when `n < 2^53`, `v` is finite and the `n`-fold sums
of `v` and of `v * v` incur no rounding error. -/
theorem c4_constant_sequence (n : Nat) (v : F64) (hn : 1 ≤ n) :
    ∃ r, calculate_statistics (List.replicate n v) = some r ∧ r.min = v ∧ r.max = v ∧
      (n < 2 ^ 53 → v.WF → v.isFinite = true → SumExact (List.replicate n v) →
        SumExact (List.replicate n (fmul v v)) →
        feq r.mean v = true ∧ feq r.stddev zero = true) := by
  obtain ⟨m, rfl⟩ : ∃ m, n = m + 1 := ⟨n - 1, by omega⟩
  refine ⟨_, calculate_statistics_eq (min_element_replicate v m) (max_element_replicate v m),
    rfl, rfl, ?_⟩
  intro hlen hwf hfin hex hex2
  cases v with
  | nan => simp [F64.isFinite] at hfin
  | inf _ => simp [F64.isFinite] at hfin
  | fin t k =>
    have hlen' : (List.replicate (m + 1) (F64.fin t k)).length < 2 ^ 53 := by simpa using hlen
    have hlen2 : (List.replicate (m + 1) (F64.fin t k)).length = m + 1 := by simp
    -- the mean
    obtain ⟨hf, hs⟩ := hex
    rw [sum_units_replicate] at hs
    obtain ⟨s, hmean, hsv⟩ := fdiv_of_exact_multiple (by omega) hlen hwf hf hs
    have hmean' : meanOf (List.replicate (m + 1) (F64.fin t k)) = F64.fin s k := by
      unfold meanOf; rw [hlen2]; exact hmean
    -- the square
    have hsq : fmul (F64.fin t k) (F64.fin t k) = ofMag false (roundMag (k * k) unit) := by
      simp [fmul, roundTo]
    have hsq' : fmul (F64.fin s k) (F64.fin s k) = ofMag false (roundMag (k * k) unit) := by
      simp [fmul, roundTo]
    obtain ⟨hf2, hs2⟩ := hex2
    rw [sum_units_replicate, hsq] at hs2
    rw [hsq] at hf2
    have hwWF : (ofMag false (roundMag (k * k) unit)).WF := ofMag_WF (roundMag_dvd _ _)
    by_cases hov : roundMag (k * k) unit < overflowMag
    · have hw : ofMag false (roundMag (k * k) unit) = F64.fin false (roundMag (k * k) unit) := by
        unfold ofMag; rw [if_pos hov]
      rw [hw] at hs2 hf2 hwWF
      obtain ⟨s', hq, hsv'⟩ := fdiv_of_exact_multiple (n := m + 1) (by omega) hlen hwWF hf2 hs2
      have hvar : varianceOf (List.replicate (m + 1) (F64.fin t k))
          = F64.fin (s' && true) 0 := by
        unfold varianceOf
        rw [hmean', hsq', inner_product_replicate, hsq, hw, hlen2, hq]
        simp only [fsub, fneg, fadd]
        have hz : sval s' (roundMag (k * k) unit) + sval true (roundMag (k * k) unit) = 0 := by
          rw [hsv']; simp [sval]
        simp [hz]
      constructor
      · show feq (meanOf _) _ = true
        rw [hmean']
        simp [feq, hsv]
      · show feq (stddevOf _) _ = true
        unfold stddevOf
        rw [hvar, fsqrt_fin]
        simp [feq, zero, sval]
    · exfalso
      have hw : ofMag false (roundMag (k * k) unit) = F64.inf false := by
        unfold ofMag; rw [if_neg hov]
      rw [hw, accumulate_replicate_inf m zero (Or.inr rfl)] at hf2
      simp [F64.isFinite] at hf2

/-- C4, witness of the amended statement: four copies of `0.5`. -/
theorem c4_constant_sequence_witness :
    ∃ r, calculate_statistics (List.replicate 4 (ofRatio false 1 2)) = some r ∧
      r.min = ofRatio false 1 2 ∧ r.max = ofRatio false 1 2 ∧
      feq r.mean (ofRatio false 1 2) = true ∧ feq r.stddev zero = true := by
  obtain ⟨r, h, h1, h2, h3⟩ := c4_constant_sequence 4 (ofRatio false 1 2) (by decide)
  obtain ⟨h4, h5⟩ := h3 (by decide) (by decide!) (by decide!) (by decide!) (by decide!)
  exact ⟨r, h, h1, h2, h4, h5⟩

/-! ## C5: the literal sequence `[1, 2, 3, 4, 5]` -/

/-- C5, counterexample.  On `[1.0, 2.0, 3.0, 4.0, 5.0]` the returned kurtosis is the
double `-0x1.4ccccccccccd0p+0` (`-1.3000000000000007`), three units in the last
place away from the double `-1.3` (`-0x1.4cccccccccccdp+0`): it is not `== -1.3`. -/
theorem c5_kurtosis_not_reference :
    ofRatio true 13 10 = F64.fin true (0x14cccccccccccd * 2 ^ 1022) ∧
    (calculate_statistics oneToFive).map
        (fun r => (r.kurtosis, feq r.kurtosis (ofRatio true 13 10)))
      = some (F64.fin true (0x14ccccccccccd0 * 2 ^ 1022), false) := by
  decide!

/-- C5, amended.  On `[1.0, 2.0, 3.0, 4.0, 5.0]` `calculate_statistics` returns
mean `3`, min `1`, max `5`, skewness `0`, stddev the double nearest to `sqrt 2`
(`0x1.6a09e667f3bcdp+0`: the squares of the two midpoints next to it bracket `2`),
and kurtosis the double `-0x1.4ccccccccccd0p+0`, which is within `2^-50` of the
reference value `17/10 - 3 = -1.3`. -/
theorem c5_literal_sequence :
    calculate_statistics oneToFive = some
      { mean := ofNat 3, stddev := F64.fin false (0x16a09e667f3bcd * 2 ^ 1022),
        min := ofNat 1, max := ofNat 5, skewness := zero,
        kurtosis := F64.fin true (0x14ccccccccccd0 * 2 ^ 1022) } ∧
    (2 * (0x16a09e667f3bcd * 2 ^ 1022) - 2 ^ 1022) ^ 2 < 2 * (2 * unit) ^ 2 ∧
    2 * (2 * unit) ^ 2 < (2 * (0x16a09e667f3bcd * 2 ^ 1022) + 2 ^ 1022) ^ 2 ∧
    (10 * (0x14ccccccccccd0 * 2 ^ 1022) - 13 * unit) * 2 ^ 50 < 10 * unit ∧
    13 * unit ≤ 10 * (0x14ccccccccccd0 * 2 ^ 1022) := by
  decide!

/-! ## C6 and C7: kurtosis and skewness formulas -/

theorem foldl_momentStep (mean stddev : F64) (data : List F64) : ∀ acc : F64 × F64,
    data.foldl (momentStep mean stddev) acc
      = (data.foldl (fun a x => fadd a (cube (standardize mean stddev x))) acc.1,
         data.foldl (fun a x => fadd a (fourth (standardize mean stddev x))) acc.2) := by
  induction data with
  | nil => intro acc; rfl
  | cons x xs ih =>
    intro acc
    simp only [List.foldl_cons]
    rw [ih]
    rfl

theorem momentsOf_fst (data : List F64) :
    (momentsOf data).1 = partialSum
      (fun i => cube (standardize (meanOf data) (stddevOf data) (sample data i))) data.length := by
  unfold momentsOf
  rw [foldl_momentStep]
  exact foldl_fadd_eq_partialSum (fun x => cube (standardize (meanOf data) (stddevOf data) x)) data

theorem momentsOf_snd (data : List F64) :
    (momentsOf data).2 = partialSum
      (fun i => fourth (standardize (meanOf data) (stddevOf data) (sample data i)))
      data.length := by
  unfold momentsOf
  rw [foldl_momentStep]
  exact foldl_fadd_eq_partialSum
    (fun x => fourth (standardize (meanOf data) (stddevOf data) x)) data

/-- C6.  For every non-empty sample sequence (whether or not stddev > 0), the
returned kurtosis is the mean over all samples of `((x - mean) / stddev)^4`, minus
`3`, where mean and stddev are the values returned in the same record; every
operation is the double operation and the sum is taken in index order. -/
theorem c6_kurtosis_formula (data : List F64) (hne : data ≠ []) :
    ∃ r, calculate_statistics data = some r ∧
      r.kurtosis = fsub
        (meanOver data.length
          (fun i => fourth (fdiv (fsub (sample data i) r.mean) r.stddev)))
        three := by
  obtain ⟨m, hm⟩ := min_element_isSome hne
  obtain ⟨M, hM⟩ := max_element_isSome hne
  refine ⟨_, calculate_statistics_eq hm hM, ?_⟩
  show fsub (fdiv (momentsOf data).2 (ofNat data.length)) three = _
  rw [momentsOf_snd]
  rfl

/-- C6, witness on `[1, 2, 3, 4, 5]`. -/
theorem c6_kurtosis_formula_witness :
    ∃ r, calculate_statistics oneToFive = some r ∧
      r.kurtosis = fsub
        (meanOver oneToFive.length
          (fun i => fourth (fdiv (fsub (sample oneToFive i) r.mean) r.stddev)))
        three :=
  c6_kurtosis_formula oneToFive (by simp [oneToFive])

/-! ## C8: order of the samples -/

theorem feq_of_not_flt {a b : F64} (ha : a ≠ F64.nan) (hb : b ≠ F64.nan)
    (h1 : flt a b = false) (h2 : flt b a = false) : feq a b = true := by
  cases a with
  | nan => exact absurd rfl ha
  | inf s =>
    cases b with
    | nan => exact absurd rfl hb
    | inf t => cases s <;> cases t <;> simp_all [flt, feq]
    | fin t k => cases s <;> simp_all [flt]
  | fin s k =>
    cases b with
    | nan => exact absurd rfl hb
    | inf t => cases t <;> simp_all [flt]
    | fin t j =>
      simp only [flt, decide_eq_false_iff_not] at h1 h2
      simp only [feq, decide_eq_true_eq]
      omega

/-- C8, counterexample.  The sequences `[2^53, 1, -2^53]` and `[2^53, -2^53, 1]`
are permutations of each other, but the first sums to `0` (`2^53 + 1` rounds to
`2^53`) and the second to `1`: the returned means are `0` and `1/3`
(`0x1.5555555555555p-2`). -/
theorem c8_mean_depends_on_order :
    List.Perm [twoPow53, ofNat 1, negTwoPow53] [twoPow53, negTwoPow53, ofNat 1] ∧
    (∀ x ∈ [twoPow53, ofNat 1, negTwoPow53], x.WF) ∧
    (calculate_statistics [twoPow53, ofNat 1, negTwoPow53]).map (fun r => r.mean)
      = some zero ∧
    (calculate_statistics [twoPow53, negTwoPow53, ofNat 1]).map (fun r => r.mean)
      = some (F64.fin false (0x15555555555555 * 2 ^ 1020)) :=
  ⟨List.Perm.cons _ (List.Perm.swap _ _ _), by decide!, by decide!, by decide!⟩

/-- C8, amended.  The min and max returned by `calculate_statistics` are
order-independent: for every non-empty sample sequence without NaN and every
permutation of it, both records have `==` min and `==` max.  (The mean, stddev,
skewness and kurtosis are floating-point sums and depend on the order.) -/
theorem c8_min_max_order_independent (xs ys : List F64) (hne : xs ≠ [])
    (hperm : List.Perm xs ys) (hnan : ∀ x ∈ xs, x ≠ F64.nan) :
    ∃ r r', calculate_statistics xs = some r ∧ calculate_statistics ys = some r' ∧
      feq r.min r'.min = true ∧ feq r.max r'.max = true := by
  have hne' : ys ≠ [] := by
    intro h; rw [h] at hperm; exact hne (List.Perm.eq_nil hperm)
  obtain ⟨m, hm⟩ := min_element_isSome hne
  obtain ⟨M, hM⟩ := max_element_isSome hne
  obtain ⟨m', hm'⟩ := min_element_isSome hne'
  obtain ⟨M', hM'⟩ := max_element_isSome hne'
  obtain ⟨a1, a2⟩ := min_element_spec hm
  obtain ⟨b1, b2⟩ := max_element_spec hM
  obtain ⟨c1, c2⟩ := min_element_spec hm'
  obtain ⟨d1, d2⟩ := max_element_spec hM'
  have c1' : m' ∈ xs := hperm.mem_iff.2 c1
  have d1' : M' ∈ xs := hperm.mem_iff.2 d1
  refine ⟨_, _, calculate_statistics_eq hm hM, calculate_statistics_eq hm' hM', ?_, ?_⟩
  · exact feq_of_not_flt (hnan m a1) (hnan m' c1') (c2 m (hperm.mem_iff.1 a1)) (a2 m' c1')
  · exact feq_of_not_flt (hnan M b1) (hnan M' d1') (b2 M' d1') (d2 M (hperm.mem_iff.1 b1))

/-- C8, witness of the amended statement on the two orders of the
counterexample. -/
theorem c8_min_max_order_independent_witness :
    ∃ r r', calculate_statistics [twoPow53, ofNat 1, negTwoPow53] = some r ∧
      calculate_statistics [twoPow53, negTwoPow53, ofNat 1] = some r' ∧
      feq r.min r'.min = true ∧ feq r.max r'.max = true :=
  c8_min_max_order_independent [twoPow53, ofNat 1, negTwoPow53]
    [twoPow53, negTwoPow53, ofNat 1] (by simp)
    (List.Perm.cons _ (List.Perm.swap _ _ _)) (by decide!)

/-! ## C9: shape of the histogram -/

theorem wrap32_succ {c : Int} (h0 : 0 ≤ c) (h1 : c + 1 < 2 ^ 31) : wrap32 (c + 1) = c + 1 := by
  unfold wrap32
  omega

theorem incrAt_length (h : List Int) : ∀ i, (incrAt h i).length = h.length := by
  induction h with
  | nil => intro i; rfl
  | cons c cs ih =>
    intro i
    cases i with
    | zero => rfl
    | succ i => simp [incrAt, ih]

theorem incrAt_sum (h : List Int) : ∀ i, i < h.length →
    (∀ c ∈ h, 0 ≤ c ∧ c + 1 < 2 ^ 31) → (incrAt h i).sum = h.sum + 1 := by
  induction h with
  | nil => intro i hi; simp at hi
  | cons c cs ih =>
    intro i hi hc
    cases i with
    | zero =>
      have := hc c (by simp)
      simp only [incrAt, List.sum_cons, wrap32_succ this.1 this.2]
      ring
    | succ i =>
      have := ih i (by simpa using hi) (fun d hd => hc d (by simp [hd]))
      simp only [incrAt, List.sum_cons, this]
      ring

theorem incrAt_nonneg (h : List Int) : ∀ i,
    (∀ c ∈ h, 0 ≤ c ∧ c + 1 < 2 ^ 31) → ∀ c ∈ incrAt h i, 0 ≤ c := by
  induction h with
  | nil => intro i _ c hc; simp [incrAt] at hc
  | cons d ds ih =>
    intro i hd c hc
    have hd0 := hd d (by simp)
    cases i with
    | zero =>
      simp only [incrAt, List.mem_cons] at hc
      rcases hc with hc | hc
      · rw [hc, wrap32_succ hd0.1 hd0.2]; omega
      · exact (hd c (by simp [hc])).1
    | succ i =>
      simp only [incrAt, List.mem_cons] at hc
      rcases hc with hc | hc
      · rw [hc]; exact hd0.1
      · exact ih i (fun e he => hd e (by simp [he])) c hc

theorem le_sum_of_mem_nonneg (h : List Int) (hpos : ∀ c ∈ h, 0 ≤ c) : ∀ c ∈ h, c ≤ h.sum := by
  induction h with
  | nil => intro c hc; simp at hc
  | cons d ds ih =>
    intro c hc
    have hd := hpos d (by simp)
    have hs : 0 ≤ ds.sum := List.sum_nonneg (fun e he => hpos e (by simp [he]))
    simp only [List.mem_cons] at hc
    simp only [List.sum_cons]
    rcases hc with hc | hc
    · omega
    · have := ih (fun e he => hpos e (by simp [he])) c hc
      omega

/-- Invariant of the binning loop: after any number of samples the histogram
keeps its length, its counters are non-negative, and they sum to at most the
number of samples processed. -/
theorem binning_invariant (mn mx : F64) (bins : Nat) (data : List F64) :
    ∀ (h : List Int) (k : Nat), h.length = bins → (∀ c ∈ h, 0 ≤ c) → h.sum ≤ (k : Int) →
      k + data.length < 2 ^ 31 →
      (data.foldl (binStep mn mx bins) h).length = bins ∧
      (∀ c ∈ data.foldl (binStep mn mx bins) h, 0 ≤ c) ∧
      (data.foldl (binStep mn mx bins) h).sum ≤ ((k + data.length : Nat) : Int) := by
  induction data with
  | nil => intro h k hl hp hs _; exact ⟨hl, hp, by simpa using hs⟩
  | cons v vs ih =>
    intro h k hl hp hs hk
    simp only [List.foldl_cons, List.length_cons] at hk ⊢
    have hbound : ∀ c ∈ h, 0 ≤ c ∧ c + 1 < 2 ^ 31 := by
      intro c hc
      have h1 := le_sum_of_mem_nonneg h hp c hc
      have h2 : (k : Int) + 1 < 2 ^ 31 := by
        have : k + 1 < 2 ^ 31 := by omega
        exact_mod_cast this
      exact ⟨hp c hc, by omega⟩
    have hstep : (binStep mn mx bins h v).length = bins ∧
        (∀ c ∈ binStep mn mx bins h v, 0 ≤ c) ∧
        (binStep mn mx bins h v).sum ≤ ((k + 1 : Nat) : Int) := by
      unfold binStep
      simp only
      split_ifs with hg
      · have hi : (binIndex mn mx bins v).toNat < h.length := by
          rw [hl]; omega
        refine ⟨by rw [incrAt_length, hl], incrAt_nonneg h _ hbound, ?_⟩
        rw [incrAt_sum h _ hi hbound]
        push_cast
        omega
      · exact ⟨hl, hp, by push_cast; omega⟩
    have := ih (binStep mn mx bins h v) (k + 1) hstep.1 hstep.2.1 hstep.2.2 (by omega)
    have e : k + 1 + vs.length = k + (vs.length + 1) := by omega
    rw [e] at this
    exact this

/-- C9.  For every non-empty sample sequence of length `n` (below `2^31`, the
range of the `int` counters) and every bin count `bins >= 1`, the histogram built
by `print_histogram` has exactly `bins` entries, each non-negative, and the
entries sum to at most `n`. -/
theorem c9_histogram_shape (data : List F64) (bins : Nat) (hne : data ≠ [])
    (hn : data.length < 2 ^ 31) (_hb : 1 ≤ bins) :
    ∃ h, buildHistogram data bins = some h ∧ h.length = bins ∧
      (∀ c ∈ h, 0 ≤ c) ∧ h.sum ≤ (data.length : Int) := by
  obtain ⟨m, hm⟩ := min_element_isSome hne
  obtain ⟨M, hM⟩ := max_element_isSome hne
  have := binning_invariant m M bins data (List.replicate bins 0) 0 (by simp)
    (by intro c hc; rw [(List.mem_replicate.1 hc).2]) (by simp) (by simpa using hn)
  refine ⟨_, by simp only [buildHistogram, hm, hM], this.1, this.2.1, ?_⟩
  simpa using this.2.2

/-- C9, witness: `[1, 2, 3, 4, 5]` in `4` bins. -/
theorem c9_histogram_shape_witness :
    ∃ h, buildHistogram oneToFive 4 = some h ∧ h.length = 4 ∧
      (∀ c ∈ h, 0 ≤ c) ∧ h.sum ≤ (oneToFive.length : Int) :=
  c9_histogram_shape oneToFive 4 (by simp [oneToFive]) (by simp [oneToFive]) (by decide)

/-! ## C10: what each bin counts -/

theorem ofMag_zero (s : Bool) : ofMag s 0 = F64.fin s 0 := by
  unfold ofMag; rw [if_pos overflowMag_pos]

theorem nonNeg_ofMag_false (k : Nat) : NonNeg (ofMag false k) := by
  unfold ofMag; split_ifs <;> simp [NonNeg]

theorem signClear_ofMag_false (k : Nat) : SignClear (ofMag false k) := by
  unfold ofMag; split_ifs <;> simp [SignClear]

theorem nonNeg_roundTo {s : Bool} {a b : Nat} (hb : 0 < b) (h : s = false ∨ a = 0) :
    NonNeg (roundTo s a b) := by
  rcases h with h | h
  · rw [h]; exact nonNeg_ofMag_false _
  · rw [h]; unfold roundTo; rw [roundMag_zero hb, ofMag_zero]; simp [NonNeg]

theorem nonNeg_ofInt {z : Int} (h : 0 ≤ z) : NonNeg (ofInt z) := by
  unfold ofInt
  have : decide (z < 0) = false := by simp; omega
  rw [this]
  exact nonNeg_ofMag_false _

theorem nonNeg_fmul {a b : F64} (ha : NonNeg a) (hb : NonNeg b) : NonNeg (fmul a b) := by
  cases a with
  | nan => cases b <;> trivial
  | inf s =>
    cases b with
    | nan => trivial
    | inf t => simp_all [NonNeg, fmul]
    | fin t k =>
      simp only [NonNeg] at ha hb
      simp only [fmul]
      split_ifs with hk
      · trivial
      · rcases hb with hb | hb
        · simp [NonNeg, ha, hb]
        · exact absurd hb hk
  | fin s j =>
    cases b with
    | nan => trivial
    | inf t =>
      simp only [NonNeg] at ha hb
      simp only [fmul]
      split_ifs with hj
      · trivial
      · rcases ha with ha | ha
        · simp [NonNeg, ha, hb]
        · exact absurd ha hj
    | fin t k =>
      simp only [NonNeg] at ha hb
      simp only [fmul]
      apply nonNeg_roundTo unit_pos
      rcases ha with ha | ha <;> rcases hb with hb | hb <;> simp [ha, hb]

theorem nonNeg_fdiv {a b : F64} (ha : NonNeg a) (hb : SignClear b) : NonNeg (fdiv a b) := by
  cases a with
  | nan => cases b <;> trivial
  | inf s =>
    cases b with
    | nan => trivial
    | inf t => trivial
    | fin t k => simp_all [NonNeg, SignClear, fdiv]
  | fin s j =>
    cases b with
    | nan => trivial
    | inf t => simp [NonNeg, fdiv]
    | fin t k =>
      simp only [NonNeg] at ha
      simp only [SignClear] at hb
      simp only [fdiv]
      split_ifs with hk hj
      · trivial
      · rcases ha with ha | ha
        · simp [NonNeg, ha, hb]
        · exact absurd ha hj
      · apply nonNeg_roundTo (Nat.pos_of_ne_zero hk)
        rcases ha with ha | ha
        · left; simp [ha, hb]
        · right; simp [ha]

theorem one_le_roundMag {z : Nat} (hz : 0 < z) : 1 ≤ roundMag z 1 :=
  le_roundMag (by decide) (by rw [ulpExp_eq_zero (by decide)]; simp) (by omega)

theorem signClear_fsub_of_flt {mn mx : F64} (h : flt mn mx = true) : SignClear (fsub mx mn) := by
  cases mn with
  | nan => simp [flt] at h
  | inf s =>
    cases mx with
    | nan => simp [flt] at h
    | inf t => cases s <;> cases t <;> simp_all [flt, fsub, fneg, fadd, SignClear]
    | fin t k => cases s <;> simp_all [flt, fsub, fneg, fadd, SignClear]
  | fin s j =>
    cases mx with
    | nan => simp [flt] at h
    | inf t => cases t <;> simp_all [flt, fsub, fneg, fadd, SignClear]
    | fin t k =>
      simp only [flt, decide_eq_true_eq] at h
      have hneg : sval (!s) j = - sval s j := by cases s <;> simp [sval]
      simp only [fsub, fneg, fadd, hneg]
      have hz : ¬ (sval t k + -sval s j = 0) := by omega
      have hz' : decide (sval t k + -sval s j < 0) = false := by simp; omega
      rw [if_neg hz, hz']
      exact signClear_ofMag_false _

theorem nonNeg_fsub_of_not_flt {v mn : F64} (hmn : mn ≠ F64.nan) (h : flt v mn = false) :
    NonNeg (fsub v mn) := by
  cases mn with
  | nan => exact absurd rfl hmn
  | inf s =>
    cases v with
    | nan => trivial
    | inf t => cases s <;> cases t <;> simp_all [flt, fsub, fneg, fadd, NonNeg]
    | fin t k => cases s <;> simp_all [flt, fsub, fneg, fadd, NonNeg]
  | fin s j =>
    cases v with
    | nan => trivial
    | inf t => cases t <;> simp_all [flt, fsub, fneg, fadd, NonNeg]
    | fin t k =>
      simp only [flt, decide_eq_false_iff_not] at h
      have hneg : sval (!s) j = - sval s j := by cases s <;> simp [sval]
      simp only [fsub, fneg, fadd, hneg]
      split_ifs with hz
      · simp [NonNeg]
      · have hz' : decide (sval t k + -sval s j < 0) = false := by simp; omega
        rw [hz']
        exact nonNeg_ofMag_false _

/-- Under `min < max` the product whose integer part is the bin index is never
below zero, for any sample that is not below `min`. -/
theorem nonNeg_product {mn mx v : F64} {bins : Nat} (hlt : flt mn mx = true)
    (hv : flt v mn = false) (hb : 1 ≤ bins) :
    NonNeg (fmul (fdiv (fsub v mn) (fsub mx mn)) (ofInt ((bins : Int) - 1))) := by
  have hmn : mn ≠ F64.nan := by intro h; rw [h] at hlt; simp [flt] at hlt
  exact nonNeg_fmul (nonNeg_fdiv (nonNeg_fsub_of_not_flt hmn hv) (signClear_fsub_of_flt hlt))
    (nonNeg_ofInt (by omega))

theorem fdiv_sval_unit (s : Bool) (k : Nat) (h : s = false ∨ k = 0) :
    Int.fdiv (sval s k) (unit : Int) = sval s (k / unit) := by
  rcases h with h | h
  · subst h
    simp only [sval, Bool.false_eq_true, if_false]
    rw [Int.fdiv_eq_ediv _ (Int.ofNat_nonneg _)]
    norm_cast
  · subst h
    cases s <;> simp [sval, Int.fdiv]

/-- For a product that is not below zero, truncation toward zero
(`static_cast<int>`) and the floor agree on every index an `int` can hold. -/
theorem toInt32_eq_iff_floor {p : F64} (hp : NonNeg p) {i : Int} (h0 : 0 ≤ i)
    (h1 : i < 2 ^ 31) :
    toInt32 p = i ↔
      (match p with
        | F64.fin s k => some (Int.fdiv (sval s k) (unit : Int))
        | _ => none) = some i := by
  cases p with
  | nan => simp [toInt32]; omega
  | inf s => simp [toInt32]; omega
  | fin s k =>
    simp only [NonNeg] at hp
    simp only [toInt32, fdiv_sval_unit s k hp, Option.some.injEq]
    split_ifs with hr
    · rfl
    · constructor
      · intro h; omega
      · intro h; exfalso; apply hr; rw [h]; omega

theorem incrAt_getD (h : List Int) : ∀ j i : Nat,
    (incrAt h j).getD i 0 = if i = j ∧ j < h.length then wrap32 (h.getD i 0 + 1) else h.getD i 0 := by
  induction h with
  | nil => intro j i; simp [incrAt]
  | cons c cs ih =>
    intro j i
    cases j with
    | zero =>
      cases i with
      | zero => simp [incrAt]
      | succ i => simp [incrAt]
    | succ j =>
      cases i with
      | zero => simp [incrAt]
      | succ i =>
        have := ih j i
        simpa [incrAt] using this

theorem incrAt_mem (h : List Int) : ∀ (j : Nat) (c' : Int), c' ∈ incrAt h j →
    c' ∈ h ∨ ∃ c ∈ h, c' = wrap32 (c + 1) := by
  induction h with
  | nil => intro j c' hc; simp [incrAt] at hc
  | cons d ds ih =>
    intro j c' hc
    cases j with
    | zero =>
      simp only [incrAt, List.mem_cons] at hc
      rcases hc with hc | hc
      · exact Or.inr ⟨d, by simp, hc⟩
      · exact Or.inl (by simp [hc])
    | succ j =>
      simp only [incrAt, List.mem_cons] at hc
      rcases hc with hc | hc
      · exact Or.inl (by simp [hc])
      · rcases ih j c' hc with h1 | ⟨c, h1, h2⟩
        · exact Or.inl (by simp [h1])
        · exact Or.inr ⟨c, by simp [h1], h2⟩

theorem getD_mem_or_zero (h : List Int) (i : Nat) : h.getD i 0 ∈ h ∨ h.getD i 0 = 0 := by
  by_cases hi : i < h.length
  · left
    simp [List.getD, List.getElem?_eq_getElem hi]
  · right
    simp [List.getD, List.getElem?_eq_none (by omega : h.length ≤ i)]

/-- The binning loop adds to entry `i` the number of samples whose computed index
is `i`, and to the total the number of samples that pass the guard. -/
theorem foldl_binStep_count (mn mx : F64) (bins : Nat) (data : List F64) :
    ∀ h : List Int, h.length = bins → (∀ c ∈ h, 0 ≤ c ∧ c + (data.length : Int) < 2 ^ 31) →
      (data.foldl (binStep mn mx bins) h).length = bins ∧
      (∀ i, i < bins → (data.foldl (binStep mn mx bins) h).getD i 0
        = h.getD i 0 + (data.countP (fun v => decide (binIndex mn mx bins v = (i : Int))) : Nat)) ∧
      (data.foldl (binStep mn mx bins) h).sum
        = h.sum + (data.countP (fun v => decide (0 ≤ binIndex mn mx bins v ∧
            binIndex mn mx bins v < (bins : Int))) : Nat) := by
  induction data with
  | nil => intro h hl _; simp [hl]
  | cons v vs ih =>
    intro h hl hb
    simp only [List.foldl_cons]
    have hb1 : ∀ c ∈ h, 0 ≤ c ∧ c + 1 < 2 ^ 31 := by
      intro c hc
      have := hb c hc
      simp only [List.length_cons] at this
      push_cast at this
      omega
    have hstepl : (binStep mn mx bins h v).length = bins := by
      unfold binStep; simp only; split_ifs
      · rw [incrAt_length, hl]
      · exact hl
    have hstepb : ∀ c ∈ binStep mn mx bins h v, 0 ≤ c ∧ c + (vs.length : Int) < 2 ^ 31 := by
      intro c hc
      unfold binStep at hc
      simp only at hc
      split_ifs at hc
      · rcases incrAt_mem h _ c hc with h1 | ⟨d, h1, h2⟩
        · have := hb c h1
          simp only [List.length_cons] at this
          push_cast at this
          omega
        · have := hb d h1
          simp only [List.length_cons] at this
          push_cast at this
          rw [h2, wrap32_succ (hb1 d h1).1 (hb1 d h1).2]
          omega
      · have := hb c hc
        simp only [List.length_cons] at this
        push_cast at this
        omega
    obtain ⟨r1, r2, r3⟩ := ih (binStep mn mx bins h v) hstepl hstepb
    refine ⟨r1, ?_, ?_⟩
    · intro i hi
      rw [r2 i hi, List.countP_cons]
      unfold binStep
      simp only
      by_cases hg : 0 ≤ binIndex mn mx bins v ∧ binIndex mn mx bins v < (bins : Int)
      · rw [if_pos hg, incrAt_getD]
        have hj : (binIndex mn mx bins v).toNat < h.length := by rw [hl]; omega
        by_cases hij : binIndex mn mx bins v = (i : Int)
        · have hij' : i = (binIndex mn mx bins v).toNat := by omega
          have hc0 : 0 ≤ h.getD i 0 ∧ h.getD i 0 + 1 < 2 ^ 31 := by
            rcases getD_mem_or_zero h i with hm | hm
            · exact hb1 _ hm
            · rw [hm]; omega
          rw [if_pos ⟨hij', hj⟩, wrap32_succ hc0.1 hc0.2]
          simp [hij]
          ring
        · have hij' : ¬ (i = (binIndex mn mx bins v).toNat) := by omega
          rw [if_neg (fun hc => hij' hc.1)]
          simp [hij]
      · rw [if_neg hg]
        have hij : ¬ (binIndex mn mx bins v = (i : Int)) := by
          intro hc; apply hg; rw [hc]; omega
        simp [hij]
    · rw [r3, List.countP_cons]
      unfold binStep
      simp only
      by_cases hg : 0 ≤ binIndex mn mx bins v ∧ binIndex mn mx bins v < (bins : Int)
      · have hj : (binIndex mn mx bins v).toNat < h.length := by rw [hl]; omega
        rw [if_pos hg, incrAt_sum h _ hj hb1]
        simp [hg]
        ring
      · rw [if_neg hg]
        simp [hg]

theorem binIndex_eq_iff_spec {mn mx v : F64} {bins : Nat} (hlt : flt mn mx = true)
    (hv : flt v mn = false) (hb : 1 ≤ bins) {i : Int} (h0 : 0 ≤ i) (h1 : i < 2 ^ 31) :
    binIndex mn mx bins v = i ↔ specBinIndex mn mx bins v = some i := by
  unfold binIndex specBinIndex
  exact toInt32_eq_iff_floor (nonNeg_product hlt hv hb) h0 h1

theorem guard_iff_inRange {mn mx v : F64} {bins : Nat} (hlt : flt mn mx = true)
    (hv : flt v mn = false) (hb : 1 ≤ bins) (hb2 : bins < 2 ^ 31) :
    (0 ≤ binIndex mn mx bins v ∧ binIndex mn mx bins v < (bins : Int)) ↔
      inRange bins (specBinIndex mn mx bins v) = true := by
  have hb2' : (bins : Int) < 2 ^ 31 := by exact_mod_cast hb2
  constructor
  · intro hg
    have := (binIndex_eq_iff_spec hlt hv hb hg.1 (by omega)).1 rfl
    rw [this]
    simpa [inRange] using hg
  · intro hr
    cases hs : specBinIndex mn mx bins v with
    | none => rw [hs] at hr; simp [inRange] at hr
    | some j =>
      rw [hs] at hr
      simp only [inRange, decide_eq_true_eq] at hr
      have := (binIndex_eq_iff_spec hlt hv hb hr.1 (by omega)).2 hs
      rw [this]
      exact hr

/-- C10.  For every sample sequence with `min < max`, fewer than `2^31` samples
(the range of the `int` counters) and every `bins >= 1`, entry `i` of the
histogram built by `print_histogram` equals the number of samples `v` whose index
`floor((v - min) / (max - min) * (bins - 1))` equals `i`; samples whose index lies
outside `[0, bins)` (or have none) are counted in no entry: the entries sum to
the number of samples with an index in `[0, bins)`. -/
theorem c10_bin_counts (data : List F64) (bins : Nat) (mn mx : F64)
    (hmin : min_element data = some mn) (hmax : max_element data = some mx)
    (hlt : flt mn mx = true) (hb : 1 ≤ bins) (hb2 : bins < 2 ^ 31)
    (hn : data.length < 2 ^ 31) :
    ∃ h, buildHistogram data bins = some h ∧ h.length = bins ∧
      (∀ i, i < bins → h.getD i 0
        = (data.countP (fun v => decide (specBinIndex mn mx bins v = some (i : Int))) : Nat)) ∧
      h.sum = (data.countP (fun v => inRange bins (specBinIndex mn mx bins v)) : Nat) := by
  obtain ⟨_, hm2⟩ := min_element_spec hmin
  have hn' : ((data.length : Nat) : Int) < 2 ^ 31 := by exact_mod_cast hn
  obtain ⟨r1, r2, r3⟩ := foldl_binStep_count mn mx bins data (List.replicate bins 0)
    (by simp) (by intro c hc; rw [(List.mem_replicate.1 hc).2]; omega)
  refine ⟨_, by simp only [buildHistogram, hmin, hmax], r1, ?_, ?_⟩
  · intro i hi
    rw [r2 i hi]
    have hz : (List.replicate bins (0 : Int)).getD i 0 = 0 := by
      simp [List.getD, List.getElem?_replicate, hi]
    rw [hz, zero_add]
    congr 1
    apply List.countP_congr
    intro v hv
    have := @binIndex_eq_iff_spec mn mx v bins hlt (hm2 v hv) hb (i : Int) (by omega) (by omega)
    simpa using this
  · rw [r3]
    have hz : (List.replicate bins (0 : Int)).sum = 0 := by simp
    rw [hz, zero_add]
    congr 1
    apply List.countP_congr
    intro v hv
    have := @guard_iff_inRange mn mx v bins hlt (hm2 v hv) hb hb2
    simpa using this

/-- C10, witness: `[1, 2, 3, 4, 5]` in `4` bins (the histogram is
`[2, 1, 1, 1]`). -/
theorem c10_bin_counts_witness :
    buildHistogram oneToFive 4 = some [2, 1, 1, 1] ∧
    ∃ h, buildHistogram oneToFive 4 = some h ∧ h.length = 4 ∧
      (∀ i, i < 4 → h.getD i 0
        = (oneToFive.countP
            (fun v => decide (specBinIndex (ofNat 1) (ofNat 5) 4 v = some (i : Int))) : Nat)) ∧
      h.sum = (oneToFive.countP
        (fun v => inRange 4 (specBinIndex (ofNat 1) (ofNat 5) 4 v)) : Nat) :=
  ⟨by decide!, c10_bin_counts oneToFive 4 (ofNat 1) (ofNat 5) (by decide!) (by decide!)
    (by decide!) (by decide) (by decide) (by simp [oneToFive])⟩

/-! ## C7: skewness of a symmetric sequence -/

theorem opp_ofMag {s t : Bool} (k : Nat) (h : k = 0 ∨ s ≠ t) : Opp (ofMag s k) (ofMag t k) := by
  unfold ofMag
  split_ifs with hk
  · exact ⟨rfl, h⟩
  · rcases h with h | h
    · exact absurd (h ▸ overflowMag_pos) hk
    · exact h

theorem opp_roundTo {s t : Bool} {a b : Nat} (hb : 0 < b) (h : a = 0 ∨ s ≠ t) :
    Opp (roundTo s a b) (roundTo t a b) := by
  unfold roundTo
  apply opp_ofMag
  rcases h with h | h
  · left; rw [h]; exact roundMag_zero hb
  · right; exact h

theorem opp_units {a b : F64} (h : Opp a b) : b.units = -a.units := by
  cases a with
  | nan => cases b <;> simp_all [Opp, F64.units]
  | inf s => cases b <;> simp_all [Opp, F64.units]
  | fin s k =>
    cases b with
    | nan => simp [Opp] at h
    | inf t => simp [Opp] at h
    | fin t j =>
      simp only [Opp] at h
      obtain ⟨h1, h2⟩ := h
      subst h1
      rcases h2 with h2 | h2
      · subst h2; cases s <;> cases t <;> simp [F64.units, sval]
      · cases s <;> cases t <;> simp_all [F64.units, sval]

theorem opp_fsub {x y mu : F64} (hx : x.isFinite = true) (hy : y.isFinite = true)
    (hmu : mu.isFinite = true) (h : x.units + y.units = 2 * mu.units) :
    Opp (fsub x mu) (fsub y mu) := by
  cases x with
  | nan => simp [F64.isFinite] at hx
  | inf _ => simp [F64.isFinite] at hx
  | fin s a =>
    cases y with
    | nan => simp [F64.isFinite] at hy
    | inf _ => simp [F64.isFinite] at hy
    | fin t b =>
      cases mu with
      | nan => simp [F64.isFinite] at hmu
      | inf _ => simp [F64.isFinite] at hmu
      | fin u c =>
        simp only [F64.units] at h
        have hneg : sval (!u) c = - sval u c := by cases u <;> simp [sval]
        simp only [fsub, fneg, fadd, hneg]
        by_cases hz : sval s a + -sval u c = 0
        · have hz' : sval t b + -sval u c = 0 := by omega
          rw [if_pos hz, if_pos hz']
          exact ⟨rfl, Or.inl rfl⟩
        · have hz' : ¬ (sval t b + -sval u c = 0) := by omega
          rw [if_neg hz, if_neg hz']
          have e : (sval t b + -sval u c).natAbs = (sval s a + -sval u c).natAbs := by omega
          rw [e]
          apply opp_roundTo (by decide)
          right
          by_cases hlt : sval s a + -sval u c < 0
          · have : ¬ (sval t b + -sval u c < 0) := by omega
            simp [hlt, this]
          · have : sval t b + -sval u c < 0 := by omega
            simp [hlt, this]

theorem opp_fdiv {a b : F64} (c : F64) (h : Opp a b) : Opp (fdiv a c) (fdiv b c) := by
  cases a with
  | nan =>
    cases b <;> simp only [Opp] at h
    cases c <;> simp [fdiv, Opp]
  | inf s =>
    cases b with
    | nan => simp only [Opp] at h
    | fin _ _ => simp only [Opp] at h
    | inf t =>
      simp only [Opp] at h
      cases c with
      | nan => simp [fdiv, Opp]
      | inf u => simp [fdiv, Opp]
      | fin u k => cases s <;> cases t <;> cases u <;> simp_all [fdiv, Opp]
  | fin s k =>
    cases b with
    | nan => simp only [Opp] at h
    | inf _ => simp only [Opp] at h
    | fin t j =>
      simp only [Opp] at h
      obtain ⟨h1, h2⟩ := h
      subst h1
      cases c with
      | nan => simp [fdiv, Opp]
      | inf u => simp [fdiv, Opp]
      | fin u m =>
        simp only [fdiv]
        by_cases hm : m = 0
        · rw [if_pos hm, if_pos hm]
          by_cases hk : k = 0
          · rw [if_pos hk, if_pos hk]; trivial
          · rw [if_neg hk, if_neg hk]
            rcases h2 with h2 | h2
            · exact absurd h2 hk
            · cases s <;> cases t <;> cases u <;> simp_all [Opp]
        · rw [if_neg hm, if_neg hm]
          apply opp_roundTo (Nat.pos_of_ne_zero hm)
          rcases h2 with h2 | h2
          · left; rw [h2]; simp
          · right; cases s <;> cases t <;> cases u <;> simp_all

theorem opp_fmul_right {a b : F64} (c : F64) (h : Opp a b) : Opp (fmul a c) (fmul b c) := by
  cases a with
  | nan =>
    cases b <;> simp only [Opp] at h
    cases c <;> simp [fmul, Opp]
  | inf s =>
    cases b with
    | nan => simp only [Opp] at h
    | fin _ _ => simp only [Opp] at h
    | inf t =>
      simp only [Opp] at h
      cases c with
      | nan => simp [fmul, Opp]
      | inf u => cases s <;> cases t <;> cases u <;> simp_all [fmul, Opp]
      | fin u k =>
        simp only [fmul]
        by_cases hk : k = 0
        · rw [if_pos hk, if_pos hk]; trivial
        · rw [if_neg hk, if_neg hk]
          cases s <;> cases t <;> cases u <;> simp_all [Opp]
  | fin s k =>
    cases b with
    | nan => simp only [Opp] at h
    | inf _ => simp only [Opp] at h
    | fin t j =>
      simp only [Opp] at h
      obtain ⟨h1, h2⟩ := h
      subst h1
      cases c with
      | nan => simp [fmul, Opp]
      | inf u =>
        simp only [fmul]
        by_cases hk : k = 0
        · rw [if_pos hk, if_pos hk]; trivial
        · rw [if_neg hk, if_neg hk]
          rcases h2 with h2 | h2
          · exact absurd h2 hk
          · cases s <;> cases t <;> cases u <;> simp_all [Opp]
      | fin u m =>
        simp only [fmul]
        apply opp_roundTo unit_pos
        rcases h2 with h2 | h2
        · left; rw [h2]; simp
        · right; cases s <;> cases t <;> cases u <;> simp_all

theorem fmul_self_of_opp {a b : F64} (h : Opp a b) : fmul a a = fmul b b := by
  cases a with
  | nan => cases b <;> simp_all [Opp]
  | inf s => cases b <;> simp_all [Opp, fmul]
  | fin s k =>
    cases b with
    | nan => simp [Opp] at h
    | inf t => simp [Opp] at h
    | fin t j =>
      simp only [Opp] at h
      obtain ⟨h1, _⟩ := h
      subst h1
      simp [fmul]

theorem fmul_comm (a b : F64) : fmul a b = fmul b a := by
  cases a <;> cases b <;> simp [fmul, Bool.xor_comm, Nat.mul_comm]

theorem opp_cube {a b : F64} (h : Opp a b) : Opp (cube a) (cube b) := by
  unfold cube
  rw [← fmul_self_of_opp h]
  exact opp_fmul_right _ h

theorem momentsOf_fst_eq_accumulate (data : List F64) :
    (momentsOf data).1
      = accumulate (data.map (fun x => cube (standardize (meanOf data) (stddevOf data) x))) zero := by
  unfold momentsOf accumulate
  rw [foldl_momentStep, List.foldl_map]

theorem sum_units_mirror (g : F64 → F64) (mu : F64) (data mirror : List F64)
    (hg : ∀ x y, x.isFinite = true → y.isFinite = true → x.units + y.units = 2 * mu.units →
      Opp (g x) (g y))
    (h : List.Forall₂ (fun x y => x.isFinite = true ∧ y.isFinite = true ∧
      x.units + y.units = 2 * mu.units) data mirror) :
    ((mirror.map g).map F64.units).sum = -((data.map g).map F64.units).sum := by
  induction h with
  | nil => simp
  | cons hxy _ ih =>
    simp only [List.map_cons, List.sum_cons, ih]
    rw [opp_units (hg _ _ hxy.1 hxy.2.1 hxy.2.2)]
    ring

theorem one_le_roundMag_unit {n : Nat} (hn : 0 < n) : unit ≤ roundMag (n * unit) 1 := by
  apply le_roundMag (by decide)
  · have : unit = 1 * unit := (Nat.one_mul _).symm
    rw [this]
    exact (representable_mul_unit (by decide)).2
  · rw [Nat.mul_one]
    exact Nat.le_mul_of_pos_left _ hn

/-- A zero divided by a positive sample count is a zero. -/
theorem fdiv_zero_ofNat (s : Bool) {n : Nat} (hn : 0 < n) :
    ∃ t, fdiv (F64.fin s 0) (ofNat n) = F64.fin t 0 := by
  have hR := one_le_roundMag_unit hn
  have hu := unit_pos
  unfold ofNat roundTo ofMag
  split_ifs with h
  · have hne : roundMag (n * unit) 1 ≠ 0 := by omega
    refine ⟨xor s false, ?_⟩
    simp only [fdiv, if_neg hne, Nat.zero_mul]
    unfold roundTo
    rw [roundMag_zero (Nat.pos_of_ne_zero hne), ofMag_zero]
  · exact ⟨xor s false, rfl⟩

/-- C7, counterexample.  The sequence `[0, 1, 4, 3]` is symmetric about its mean
`2` (mirror images `[4, 3, 0, 1]`), yet the returned skewness is
`0x1.8p-55` (about `4.2e-17`), not `0`: the cubes `-c, -d, c, d` are added in that
order and `(-c - d) + c` rounds. -/
theorem c7_symmetric_skewness_nonzero :
    (calculate_statistics zeroOneFourThree).map
        (fun r => (r.mean, r.skewness, feq r.skewness zero))
      = some (ofNat 2, F64.fin false (3 * 2 ^ 1018), false) ∧
    SymmetricAbout (ofNat 2) zeroOneFourThree := by
  refine ⟨by decide!, by decide!, [ofNat 4, ofNat 3, ofNat 0, ofNat 1], ?_, ?_⟩
  · have h1 : List.Perm [ofNat 0, ofNat 1, ofNat 4, ofNat 3] [ofNat 4, ofNat 0, ofNat 1, ofNat 3] :=
      (List.Perm.cons _ (List.Perm.swap _ _ _)).trans (List.Perm.swap _ _ _)
    have h2 : List.Perm [ofNat 0, ofNat 1, ofNat 3] [ofNat 3, ofNat 0, ofNat 1] :=
      (List.Perm.cons _ (List.Perm.swap _ _ _)).trans (List.Perm.swap _ _ _)
    exact h1.trans (List.Perm.cons _ h2)
  · exact List.Forall₂.cons (by decide!) (List.Forall₂.cons (by decide!)
      (List.Forall₂.cons (by decide!) (List.Forall₂.cons (by decide!) List.Forall₂.nil)))

/-- C7, amended.  For every non-empty sample sequence (whether or not
stddev > 0) the returned skewness is the mean over all samples of
`((x - mean) / stddev)^3`, in double arithmetic and index order.  For a sequence
symmetric about its returned mean it is `== 0` when the floating-point sum of
the cubes incurs no rounding error; with rounding it is only close to `0`. -/
theorem c7_skewness (data : List F64) (hne : data ≠ []) :
    ∃ r, calculate_statistics data = some r ∧
      r.skewness = meanOver data.length
          (fun i => cube (fdiv (fsub (sample data i) r.mean) r.stddev)) ∧
      (SymmetricAbout r.mean data →
        SumExact (data.map (fun x => cube (fdiv (fsub x r.mean) r.stddev))) →
        feq r.skewness zero = true) := by
  obtain ⟨m, hm⟩ := min_element_isSome hne
  obtain ⟨M, hM⟩ := max_element_isSome hne
  refine ⟨_, calculate_statistics_eq hm hM, ?_, ?_⟩
  · show fdiv (momentsOf data).1 (ofNat data.length) = _
    rw [momentsOf_fst]
    rfl
  · intro hsym hex
    show feq (fdiv (momentsOf data).1 (ofNat data.length)) zero = true
    obtain ⟨hmu, mirror, hperm, hpairs⟩ := hsym
    change (meanOf data).isFinite = true at hmu
    change List.Forall₂ (fun x y => x.isFinite = true ∧ y.isFinite = true ∧
      x.units + y.units = 2 * (meanOf data).units) data mirror at hpairs
    change SumExact (data.map (fun x => cube (standardize (meanOf data) (stddevOf data) x))) at hex
    obtain ⟨hf, hs⟩ := hex
    rw [← momentsOf_fst_eq_accumulate] at hf hs
    set g := fun x => cube (standardize (meanOf data) (stddevOf data) x) with hg
    have hopp : ∀ x y, x.isFinite = true → y.isFinite = true →
        x.units + y.units = 2 * (meanOf data).units → Opp (g x) (g y) := by
      intro x y hx hy hxy
      exact opp_cube (opp_fdiv _ (opp_fsub hx hy hmu hxy))
    have h1 := sum_units_mirror g (meanOf data) data mirror hopp hpairs
    have h2 : ((mirror.map g).map F64.units).sum = ((data.map g).map F64.units).sum :=
      List.Perm.sum_eq ((hperm.symm.map g).map F64.units)
    have h0 : ((data.map g).map F64.units).sum = 0 := by omega
    rw [h0] at hs
    cases hacc : (momentsOf data).1 with
    | nan => rw [hacc] at hf; simp [F64.isFinite] at hf
    | inf s => rw [hacc] at hf; simp [F64.isFinite] at hf
    | fin s k =>
      rw [hacc] at hs
      have hk : k = 0 := by
        cases s <;> simp [F64.units, sval] at hs <;> exact hs
      subst hk
      obtain ⟨t, ht⟩ := fdiv_zero_ofNat s (List.length_pos.2 hne)
      rw [ht]
      cases t <;> simp [feq, zero, sval]

/-- The record returned on `[1, 2, 3, 4, 5]`. -/
theorem calculate_statistics_oneToFive :
    calculate_statistics oneToFive = some
      ⟨ofNat 3, F64.fin false (0x16a09e667f3bcd * 2 ^ 1022), ofNat 1, ofNat 5, zero,
        F64.fin true (0x14ccccccccccd0 * 2 ^ 1022)⟩ := by
  decide!

/-- C7, witness of the amended statement on `[1, 2, 3, 4, 5]`, symmetric about
its mean `3` with mirror images `[5, 4, 3, 2, 1]`. -/
theorem c7_skewness_witness :
    ∃ r, calculate_statistics oneToFive = some r ∧
      r.skewness = meanOver oneToFive.length
          (fun i => cube (fdiv (fsub (sample oneToFive i) r.mean) r.stddev)) ∧
      feq r.skewness zero = true := by
  obtain ⟨r, h, h1, h2⟩ := c7_skewness oneToFive (by simp [oneToFive])
  have hr := Option.some.inj (h.symm.trans calculate_statistics_oneToFive)
  subst hr
  refine ⟨_, h, h1, h2 ⟨by decide!, oneToFive.reverse, (List.reverse_perm _).symm, ?_⟩ (by decide!)⟩
  exact List.Forall₂.cons (by decide!) (List.Forall₂.cons (by decide!)
      (List.Forall₂.cons (by decide!) (List.Forall₂.cons (by decide!)
      (List.Forall₂.cons (by decide!) List.Forall₂.nil))))

/-! ## The model on known values -/

/-- Textbook values of binary64 arithmetic, as the model computes them:
`0.1 + 0.2` is `0x1.3333333333334p-2` (`0.30000000000000004`, not the double
`0.3`); `1 / 3` is `0x1.5555555555555p-2`; `2^53 + 1` rounds to `2^53` (tie to
even) and `2^53 + 3` to `2^53 + 4`; `sqrt 4 = 2`; the largest double doubled
is `+inf`; half the smallest subnormal is `0`; `0 / 0` is NaN; `-0 == +0`. -/
theorem model_known_values :
    fadd tenth (ofRatio false 2 10) = F64.fin false (0x13333333333334 * 2 ^ 1020) ∧
    ofRatio false 3 10 = F64.fin false (0x13333333333333 * 2 ^ 1020) ∧
    fdiv (ofNat 1) (ofNat 3) = F64.fin false (0x15555555555555 * 2 ^ 1020) ∧
    fadd twoPow53 (ofNat 1) = twoPow53 ∧
    fadd twoPow53 (ofNat 3) = ofNat (2 ^ 53 + 4) ∧
    fsqrt (ofNat 4) = ofNat 2 ∧
    fadd (F64.fin false ((2 ^ 53 - 1) * 2 ^ 2045)) (F64.fin false ((2 ^ 53 - 1) * 2 ^ 2045))
      = F64.inf false ∧
    fdiv (F64.fin false 1) (ofNat 2) = zero ∧
    fdiv zero zero = F64.nan ∧
    feq (F64.fin true 0) zero = true := by
  decide!

/-- The conversion `static_cast<int>` truncates toward zero: `2.9` gives `2`,
`-2.9` gives `-2`, and NaN, infinities and out-of-range values give `-2^31`. -/
theorem toInt32_known_values :
    toInt32 (ofRatio false 29 10) = 2 ∧ toInt32 (ofRatio true 29 10) = -2 ∧
    toInt32 F64.nan = -(2 ^ 31) ∧ toInt32 (F64.inf false) = -(2 ^ 31) ∧
    toInt32 (ofNat (2 ^ 31)) = -(2 ^ 31) ∧ toInt32 (ofNat (2 ^ 31 - 1)) = 2 ^ 31 - 1 := by
  decide!

/-! ## C11: a sample equal to max -/

theorem representable_unit : Representable unit := by
  have := @representable_mul_unit 1 (by decide)
  rwa [Nat.one_mul] at this

theorem ofInt_exact {z : Int} (h0 : 0 ≤ z) (h1 : z < 2 ^ 53) :
    ofInt z = F64.fin false (z.toNat * unit) := by
  have hz : decide (z < 0) = false := by simp; omega
  have hn : z.natAbs = z.toNat := by omega
  have hlt : z.toNat < 2 ^ 53 := by omega
  have := @roundTo_exact false (z.toNat * unit) 1 (by decide) (representable_mul_unit hlt)
  unfold ofInt
  rw [hz, hn]
  simpa using this

theorem fdiv_self {d : Nat} (hd : d ≠ 0) :
    fdiv (F64.fin false d) (F64.fin false d) = F64.fin false unit := by
  have := @roundTo_exact false unit d (Nat.pos_of_ne_zero hd) representable_unit
  simp only [fdiv, if_neg hd, Bool.xor_false]
  rw [Nat.mul_comm]
  exact this

theorem fmul_one_ofNat {m : Nat} (hm : m < 2 ^ 53) :
    fmul (F64.fin false unit) (F64.fin false (m * unit)) = F64.fin false (m * unit) := by
  have := @roundTo_exact false (m * unit) unit unit_pos (representable_mul_unit hm)
  simp only [fmul, Bool.xor_false]
  rw [Nat.mul_comm]
  exact this

theorem toInt32_ofNat {m : Nat} (hm : m < 2 ^ 31) : toInt32 (F64.fin false (m * unit)) = m := by
  have hdiv : m * unit / unit = m := Nat.mul_div_cancel _ unit_pos
  have hm' : (m : Int) < 2 ^ 31 := by exact_mod_cast hm
  simp only [toInt32, hdiv, sval, Bool.false_eq_true, if_false]
  rw [if_pos ⟨by omega, hm'⟩]

/-- The difference `max - min` when `min < max` and it does not overflow: a
finite double with a clear sign bit and a non-zero magnitude. -/
theorem fsub_pos_of_flt {mn mx : F64} (hlt : flt mn mx = true)
    (hfin : (fsub mx mn).isFinite = true) : ∃ d, d ≠ 0 ∧ fsub mx mn = F64.fin false d := by
  cases mn with
  | nan => simp [flt] at hlt
  | inf s =>
    cases mx with
    | nan => simp [flt] at hlt
    | inf t => cases s <;> cases t <;> simp_all [flt, fsub, fneg, fadd, F64.isFinite]
    | fin t k => cases s <;> simp_all [flt, fsub, fneg, fadd, F64.isFinite]
  | fin s j =>
    cases mx with
    | nan => simp [flt] at hlt
    | inf t => cases t <;> simp_all [flt, fsub, fneg, fadd, F64.isFinite]
    | fin t k =>
      simp only [flt, decide_eq_true_eq] at hlt
      have hneg : sval (!s) j = - sval s j := by cases s <;> simp [sval]
      have hz : ¬ (sval t k + -sval s j = 0) := by omega
      have hz' : decide (sval t k + -sval s j < 0) = false := by simp; omega
      simp only [fsub, fneg, fadd, hneg, if_neg hz, hz'] at hfin ⊢
      have hpos : 0 < (sval t k + -sval s j).natAbs := by omega
      have hge := one_le_roundMag hpos
      unfold roundTo ofMag at hfin ⊢
      by_cases hov : roundMag (sval t k + -sval s j).natAbs 1 < overflowMag
      · rw [if_pos hov]
        exact ⟨_, by omega, rfl⟩
      · rw [if_neg hov] at hfin
        simp [F64.isFinite] at hfin

/-- A sample equal to `max` is subtracted to the same difference as `max`. -/
theorem fsub_eq_of_feq {v mx mn : F64} (hlt : flt mn mx = true) (hv : feq v mx = true)
    (hfin : (fsub mx mn).isFinite = true) : fsub v mn = fsub mx mn := by
  cases mx with
  | nan => cases v <;> simp [feq] at hv
  | inf t =>
    cases mn with
    | nan => simp [flt] at hlt
    | inf s => cases s <;> cases t <;> simp_all [flt, fsub, fneg, fadd, F64.isFinite]
    | fin s j => simp [fsub, fneg, fadd, F64.isFinite] at hfin
  | fin t k =>
    cases v with
    | nan => simp [feq] at hv
    | inf u => simp [feq] at hv
    | fin u i =>
      cases mn with
      | nan => simp [flt] at hlt
      | inf s => simp [fsub, fneg, fadd, F64.isFinite] at hfin
      | fin s j =>
        simp only [feq, decide_eq_true_eq] at hv
        simp only [flt, decide_eq_true_eq] at hlt
        have hneg : sval (!s) j = - sval s j := by cases s <;> simp [sval]
        have hz : ¬ (sval t k + -sval s j = 0) := by omega
        simp only [fsub, fneg, fadd, hneg, hv, if_neg hz]

/-- Under `min < max` with a finite `max - min`, a sample equal to `max` gets
the bin index `bins - 1`. -/
theorem binIndex_of_feq_max {mn mx v : F64} {bins : Nat} (hlt : flt mn mx = true)
    (hfin : (fsub mx mn).isFinite = true) (hv : feq v mx = true)
    (hb : 1 ≤ bins) (hb2 : bins < 2 ^ 31) :
    binIndex mn mx bins v = (bins : Int) - 1 := by
  obtain ⟨d, hd, he⟩ := fsub_pos_of_flt hlt hfin
  have hm : ((bins : Int) - 1).toNat = bins - 1 := by omega
  have hb53 : bins - 1 < 2 ^ 53 := by
    have : (2:Nat) ^ 31 < 2 ^ 53 := two_pow_lt_two_pow (by decide)
    omega
  have hb53' : (bins : Int) - 1 < 2 ^ 53 := by omega
  unfold binIndex
  rw [fsub_eq_of_feq hlt hv hfin, he, fdiv_self hd, ofInt_exact (by omega) hb53', hm,
    fmul_one_ofNat hb53, toInt32_ofNat (by omega)]
  omega

/-- C11, counterexample.  For `[1, 2, 3, 4, 5]` (`min = 1 < max = 5`) in `4` bins
the sample `5.0` equal to max gets index `(5 - 1) / (5 - 1) * 3 = 3`, passes the
guard `0 <= 3 < 4` and is counted in the last bin: the histogram is
`[2, 1, 1, 1]` and its counts sum to `n = 5`, not less. -/
theorem c11_max_sample_not_dropped :
    min_element oneToFive = some (ofNat 1) ∧ max_element oneToFive = some (ofNat 5) ∧
    flt (ofNat 1) (ofNat 5) = true ∧
    binIndex (ofNat 1) (ofNat 5) 4 (ofNat 5) = 3 ∧
    buildHistogram oneToFive 4 = some [2, 1, 1, 1] ∧
    (buildHistogram oneToFive 4).map List.sum = some (oneToFive.length : Int) := by
  decide!

/-- C11, amended.  For a sample sequence with `min < max` whose difference
`max - min` is finite (no overflow), every sample equal to max gets the bin
index `bins - 1`, passes the guard and is counted in the last bin: it is not
dropped.  When no other sample is dropped either (every sample that is not equal
to max passes the guard `0 <= bin < bins`), the counts sum to `n`.  (Stated for
`1 <= bins < 2^31` and fewer than `2^31` samples, the range of the `int`
variables.) -/
theorem c11_max_sample_counted (data : List F64) (bins : Nat) (mn mx : F64)
    (hmin : min_element data = some mn) (hmax : max_element data = some mx)
    (hlt : flt mn mx = true) (hfin : (fsub mx mn).isFinite = true)
    (hb : 1 ≤ bins) (hb2 : bins < 2 ^ 31) (hn : data.length < 2 ^ 31) :
    (∀ v ∈ data, feq v mx = true → binIndex mn mx bins v = (bins : Int) - 1) ∧
    ∃ h, buildHistogram data bins = some h ∧
      ((data.countP (fun v => feq v mx) : Nat) : Int) ≤ h.getD (bins - 1) 0 ∧
      1 ≤ h.getD (bins - 1) 0 ∧
      ((∀ v ∈ data, feq v mx = false →
          0 ≤ binIndex mn mx bins v ∧ binIndex mn mx bins v < (bins : Int)) →
        h.sum = (data.length : Int)) := by
  have hidx : ∀ v ∈ data, feq v mx = true → binIndex mn mx bins v = (bins : Int) - 1 :=
    fun v _ hv => binIndex_of_feq_max hlt hfin hv hb hb2
  refine ⟨hidx, ?_⟩
  have hn' : ((data.length : Nat) : Int) < 2 ^ 31 := by exact_mod_cast hn
  obtain ⟨_, r2, r3⟩ := foldl_binStep_count mn mx bins data (List.replicate bins 0)
    (by simp) (by intro c hc; rw [(List.mem_replicate.1 hc).2]; omega)
  have hlast := r2 (bins - 1) (by omega)
  have hz : (List.replicate bins (0 : Int)).getD (bins - 1) 0 = 0 := by
    have hb0 : 0 < bins := by omega
    simp [List.getD, List.getElem?_replicate, hb0]
  rw [hz, zero_add] at hlast
  have hcast : ((bins - 1 : Nat) : Int) = (bins : Int) - 1 := by omega
  have hmono : data.countP (fun v => feq v mx)
      ≤ data.countP (fun v => decide (binIndex mn mx bins v = ((bins - 1 : Nat) : Int))) := by
    apply List.countP_mono_left
    intro v hv hf
    simpa [hcast] using hidx v hv hf
  have hmx : mx ∈ data := (max_element_spec hmax).1
  have hself : feq mx mx = true := by
    cases mx with
    | nan => cases mn <;> simp [flt] at hlt
    | inf t => simp [feq]
    | fin t k => simp [feq]
  have hpos : 0 < data.countP (fun v => feq v mx) :=
    List.countP_pos_iff.2 ⟨mx, hmx, hself⟩
  refine ⟨data.foldl (binStep mn mx bins) (List.replicate bins 0),
    by simp only [buildHistogram, hmin, hmax], ?_, ?_, ?_⟩
  · rw [hlast]; exact_mod_cast hmono
  · rw [hlast]
    have : 1 ≤ data.countP (fun v => decide (binIndex mn mx bins v = ((bins - 1 : Nat) : Int))) :=
      le_trans hpos hmono
    exact_mod_cast this
  · intro hrest
    rw [r3]
    have hsz : (List.replicate bins (0 : Int)).sum = 0 := by simp
    rw [hsz, zero_add]
    congr 1
    apply List.countP_eq_length.2
    intro v hv
    simp only [decide_eq_true_eq]
    cases hf : feq v mx with
    | true =>
      have := hidx v hv hf
      omega
    | false => exact hrest v hv hf

/-- C11, witness of the amended statement: `[1, 2, 3, 4, 5]` in `4` bins, where
no sample is dropped. -/
theorem c11_max_sample_counted_witness :
    (∀ v ∈ oneToFive, feq v (ofNat 5) = false →
      0 ≤ binIndex (ofNat 1) (ofNat 5) 4 v ∧
        binIndex (ofNat 1) (ofNat 5) 4 v < ((4 : Nat) : Int)) ∧
    (∀ v ∈ oneToFive, feq v (ofNat 5) = true →
      binIndex (ofNat 1) (ofNat 5) 4 v = ((4 : Nat) : Int) - 1) ∧
    ∃ h, buildHistogram oneToFive 4 = some h ∧
      ((oneToFive.countP (fun v => feq v (ofNat 5)) : Nat) : Int) ≤ h.getD (4 - 1) 0 ∧
      1 ≤ h.getD (4 - 1) 0 ∧
      ((∀ v ∈ oneToFive, feq v (ofNat 5) = false →
          0 ≤ binIndex (ofNat 1) (ofNat 5) 4 v ∧
            binIndex (ofNat 1) (ofNat 5) 4 v < ((4 : Nat) : Int)) →
        h.sum = (oneToFive.length : Int)) :=
  ⟨by decide!,
    c11_max_sample_counted oneToFive 4 (ofNat 1) (ofNat 5) (by decide!) (by decide!)
      (by decide!) (by decide!) (by decide) (by decide) (by simp [oneToFive])⟩

/-! ## C12: constant sequences in the histogram -/

theorem fdiv_nan_right (a : F64) : fdiv a F64.nan = F64.nan := by
  cases a <;> rfl

theorem fmul_nan_left (b : F64) : fmul F64.nan b = F64.nan := by
  cases b <;> rfl

/-- When `min == max` the quotient `(v - min) / (max - min)` is NaN for every
sample: it is `0 / 0`, or has a NaN operand. -/
theorem quotient_nan_of_feq {mn mx v : F64} (heq : feq mn mx = true)
    (h1 : flt v mn = false) (h2 : flt mx v = false) :
    fdiv (fsub v mn) (fsub mx mn) = F64.nan := by
  cases mn with
  | nan => simp [feq] at heq
  | inf s =>
    cases mx with
    | nan => simp [feq] at heq
    | fin t k => simp [feq] at heq
    | inf t =>
      have hd : fsub (F64.inf t) (F64.inf s) = F64.nan := by
        cases s <;> cases t <;> simp_all [feq, fsub, fneg, fadd]
      rw [hd, fdiv_nan_right]
  | fin s j =>
    cases mx with
    | nan => simp [feq] at heq
    | inf t => simp [feq] at heq
    | fin t k =>
      simp only [feq, decide_eq_true_eq] at heq
      have hneg : sval (!s) j = - sval s j := by cases s <;> simp [sval]
      have hd : fsub (F64.fin t k) (F64.fin s j) = F64.fin (t && !s) 0 := by
        simp only [fsub, fneg, fadd, hneg]
        rw [if_pos (by omega)]
      rw [hd]
      cases v with
      | nan => rfl
      | inf u => cases u <;> simp [flt] at h1 h2
      | fin u i =>
        simp only [flt, decide_eq_false_iff_not] at h1 h2
        have hn : fsub (F64.fin u i) (F64.fin s j) = F64.fin (u && !s) 0 := by
          simp only [fsub, fneg, fadd, hneg]
          rw [if_pos (by omega)]
        rw [hn]
        simp [fdiv]

theorem foldl_binStep_of_no_guard (mn mx : F64) (bins : Nat) (data : List F64) :
    ∀ h : List Int, (∀ v ∈ data, ¬ (0 ≤ binIndex mn mx bins v ∧ binIndex mn mx bins v < (bins : Int))) →
      data.foldl (binStep mn mx bins) h = h := by
  induction data with
  | nil => intro h _; rfl
  | cons v vs ih =>
    intro h hg
    simp only [List.foldl_cons]
    have hv := hg v (by simp)
    have hs : binStep mn mx bins h v = h := by
      unfold binStep; simp only; rw [if_neg hv]
    rw [hs]
    exact ih h (fun w hw => hg w (by simp [hw]))

/-- C12.  For every sample sequence with `min == max` (a non-empty constant
sequence) and every bin count, the binning of `print_histogram` divides by
`max - min`, which is a zero when the value is finite; the quotient is NaN for
every sample, the computed bin index is `-2^31` and fails the guard
`0 <= bin < bins`, and the histogram is all-empty. -/
theorem c12_constant_histogram_empty (data : List F64) (bins : Nat) (mn mx : F64)
    (hmin : min_element data = some mn) (hmax : max_element data = some mx)
    (heq : feq mn mx = true) :
    (mn.isFinite = true → ∃ s, fsub mx mn = F64.fin s 0) ∧
    (∀ v ∈ data, fdiv (fsub v mn) (fsub mx mn) = F64.nan ∧
      binIndex mn mx bins v = -(2 ^ 31) ∧
      ¬ (0 ≤ binIndex mn mx bins v ∧ binIndex mn mx bins v < (bins : Int))) ∧
    buildHistogram data bins = some (List.replicate bins 0) := by
  obtain ⟨_, hm2⟩ := min_element_spec hmin
  obtain ⟨_, hM2⟩ := max_element_spec hmax
  have hq : ∀ v ∈ data, fdiv (fsub v mn) (fsub mx mn) = F64.nan :=
    fun v hv => quotient_nan_of_feq heq (hm2 v hv) (hM2 v hv)
  have hidx : ∀ v ∈ data, binIndex mn mx bins v = -(2 ^ 31) := by
    intro v hv
    unfold binIndex
    rw [hq v hv, fmul_nan_left]
    rfl
  have hg : ∀ v ∈ data,
      ¬ (0 ≤ binIndex mn mx bins v ∧ binIndex mn mx bins v < (bins : Int)) := by
    intro v hv hc
    rw [hidx v hv] at hc
    omega
  refine ⟨?_, fun v hv => ⟨hq v hv, hidx v hv, hg v hv⟩, ?_⟩
  · intro hf
    cases mn with
    | nan => simp [F64.isFinite] at hf
    | inf s => simp [F64.isFinite] at hf
    | fin s j =>
      cases mx with
      | nan => simp [feq] at heq
      | inf t => simp [feq] at heq
      | fin t k =>
        simp only [feq, decide_eq_true_eq] at heq
        have hneg : sval (!s) j = - sval s j := by cases s <;> simp [sval]
        refine ⟨t && !s, ?_⟩
        simp only [fsub, fneg, fadd, hneg]
        rw [if_pos (by omega)]
  · simp only [buildHistogram, hmin, hmax]
    rw [foldl_binStep_of_no_guard mn mx bins data _ hg]

/-- C12, witness: three copies of `3.0` in the default `50` bins. -/
theorem c12_constant_histogram_empty_witness :
    ((ofNat 3).isFinite = true → ∃ s, fsub (ofNat 3) (ofNat 3) = F64.fin s 0) ∧
    (∀ v ∈ List.replicate 3 (ofNat 3),
      fdiv (fsub v (ofNat 3)) (fsub (ofNat 3) (ofNat 3)) = F64.nan ∧
      binIndex (ofNat 3) (ofNat 3) 50 v = -(2 ^ 31) ∧
      ¬ (0 ≤ binIndex (ofNat 3) (ofNat 3) 50 v ∧
        binIndex (ofNat 3) (ofNat 3) 50 v < ((50 : Nat) : Int))) ∧
    buildHistogram (List.replicate 3 (ofNat 3)) 50 = some (List.replicate 50 0) :=
  c12_constant_histogram_empty (List.replicate 3 (ofNat 3)) 50 (ofNat 3) (ofNat 3)
    (by decide!) (by decide!) (by decide!)

/-! ## C17: when the guard discards nothing -/

theorem rne_mono {a a' b : Nat} (h : a ≤ a') : rne a b ≤ rne a' b := by
  have hq : a / b ≤ a' / b := Nat.div_le_div_right h
  rcases Nat.lt_or_ge (a / b) (a' / b) with hlt | hge
  · have h1 := rne_le_succ a b
    have h2 := rne_ge a' b
    omega
  · have hqe : a / b = a' / b := by omega
    have e1 := Nat.div_add_mod a b
    have e2 := Nat.div_add_mod a' b
    rw [hqe] at e1
    have hr : a % b ≤ a' % b := by omega
    unfold rne
    simp only
    rw [hqe]
    split_ifs <;> omega

/-- Rounding is monotone: a larger exact value never rounds to a smaller
double. -/
theorem roundMag_mono {a a' b : Nat} (h : a ≤ a') :
    roundMag a b ≤ roundMag a' b := by
  have hq : a / b ≤ a' / b := Nat.div_le_div_right h
  have hj := ulpExp_mono hq
  have hlt := ulpExp_lt (a / b)
  unfold roundMag
  simp only
  set j := ulpExp (a / b) with hjd
  set j' := ulpExp (a' / b) with hjd'
  have hpos : 0 < 2 ^ j := two_pow_pos j
  have hpos' : 0 < 2 ^ j' := two_pow_pos j'
  rcases Nat.lt_or_ge j j' with hlt' | hge
  · have hq53 : a / (b * 2 ^ j) < 2 ^ 53 := by
      rw [← Nat.div_div_eq_div_mul, Nat.div_lt_iff_lt_mul hpos, ← Nat.pow_add]
      exact hlt
    have hr := rne_le_succ a (b * 2 ^ j)
    have hr' : rne a (b * 2 ^ j) ≤ 2 ^ 53 := by omega
    have hj0 : j' ≠ 0 := by omega
    have h1 := ulpExp_le (a' / b) (by rw [← hjd']; exact hj0)
    rw [← hjd'] at h1
    have h4 : 2 ^ 52 ≤ a' / (b * 2 ^ j') := by
      rw [← Nat.div_div_eq_div_mul, Nat.le_div_iff_mul_le hpos', ← Nat.pow_add]
      exact h1
    have h5 := rne_ge a' (b * 2 ^ j')
    calc rne a (b * 2 ^ j) * 2 ^ j ≤ 2 ^ 53 * 2 ^ j := Nat.mul_le_mul_right _ hr'
      _ = 2 ^ (53 + j) := (Nat.pow_add _ _ _).symm
      _ ≤ 2 ^ (52 + j') := Nat.pow_le_pow_right (by decide) (by omega)
      _ = 2 ^ 52 * 2 ^ j' := Nat.pow_add _ _ _
      _ ≤ rne a' (b * 2 ^ j') * 2 ^ j' := Nat.mul_le_mul_right _ (le_trans h4 h5)
  · have hje : j' = j := by omega
    rw [hje]
    exact Nat.mul_le_mul_right _ (rne_mono h)

theorem unit_lt_overflowMag : unit < overflowMag := by
  rw [unit_eq, overflowMag_eq]
  exact two_pow_lt_two_pow (by decide)

/-- The index computed from a difference `A` that does not exceed the divisor
`d` lies in `[0, m]`. -/
theorem toInt32_product_bounds {s : Bool} {A d m : Nat} (hd : d ≠ 0) (hA : A ≤ d)
    (hs : s = false ∨ A = 0) (hm : m < 2 ^ 31) :
    0 ≤ toInt32 (fmul (fdiv (F64.fin s A) (F64.fin false d)) (F64.fin false (m * unit))) ∧
    toInt32 (fmul (fdiv (F64.fin s A) (F64.fin false d)) (F64.fin false (m * unit)))
      ≤ (m : Int) := by
  have hdpos : 0 < d := Nat.pos_of_ne_zero hd
  have hm53 : m < 2 ^ 53 := lt_trans hm (two_pow_lt_two_pow (by decide))
  have hQ : roundMag (A * unit) d ≤ unit :=
    roundMag_le hdpos representable_unit.2 (by rw [Nat.mul_comm]; exact Nat.mul_le_mul_left _ hA)
  have hQov : roundMag (A * unit) d < overflowMag := lt_of_le_of_lt hQ unit_lt_overflowMag
  have hdiv : fdiv (F64.fin s A) (F64.fin false d) = F64.fin s (roundMag (A * unit) d) := by
    simp only [fdiv, if_neg hd, Bool.xor_false, roundTo, ofMag, if_pos hQov]
  have hrep := @representable_mul_unit m hm53
  have hP : roundMag (roundMag (A * unit) d * (m * unit)) unit ≤ m * unit :=
    roundMag_le unit_pos hrep.2 (by rw [Nat.mul_comm]; exact Nat.mul_le_mul_left _ hQ)
  have hPov : roundMag (roundMag (A * unit) d * (m * unit)) unit < overflowMag :=
    lt_of_le_of_lt hP hrep.1
  have hmul : fmul (F64.fin s (roundMag (A * unit) d)) (F64.fin false (m * unit))
      = F64.fin s (roundMag (roundMag (A * unit) d * (m * unit)) unit) := by
    simp only [fmul, Bool.xor_false, roundTo, ofMag, if_pos hPov]
  rw [hdiv, hmul]
  have hm' : (m : Int) < 2 ^ 31 := by exact_mod_cast hm
  rcases hs with hs | hs
  · subst hs
    have hle : roundMag (roundMag (A * unit) d * (m * unit)) unit / unit ≤ m := by
      calc roundMag (roundMag (A * unit) d * (m * unit)) unit / unit
          ≤ m * unit / unit := Nat.div_le_div_right hP
        _ = m := Nat.mul_div_cancel _ unit_pos
    simp only [toInt32, sval, Bool.false_eq_true, if_false]
    have hle' : ((roundMag (roundMag (A * unit) d * (m * unit)) unit / unit : Nat) : Int)
        ≤ (m : Int) := by exact_mod_cast hle
    have hge' : (0 : Int)
        ≤ ((roundMag (roundMag (A * unit) d * (m * unit)) unit / unit : Nat) : Int) :=
      Int.ofNat_nonneg _
    rw [if_pos ⟨by omega, by omega⟩]
    omega
  · subst hs
    have h0 : roundMag (0 * unit) d = 0 := by rw [Nat.zero_mul]; exact roundMag_zero hdpos
    have h1 : roundMag (0 * (m * unit)) unit = 0 := by
      rw [Nat.zero_mul]; exact roundMag_zero unit_pos
    rw [h0, h1]
    cases s <;> simp [toInt32, sval]

/-- The difference `v - min` of a sample between `min` and `max` never exceeds
the difference `max - min`, and is not below zero. -/
theorem fsub_le_of_between {mn mx v : F64} {d : Nat} (hmx : fsub mx mn = F64.fin false d)
    (hlt : flt mn mx = true) (hv : v ≠ F64.nan) (h1 : flt v mn = false)
    (h2 : flt mx v = false) :
    ∃ s A, fsub v mn = F64.fin s A ∧ A ≤ d ∧ (s = false ∨ A = 0) := by
  cases mn with
  | nan => simp [flt] at hlt
  | inf s =>
    cases mx <;> cases s <;> simp_all [flt, fsub, fneg, fadd]
  | fin s j =>
    cases mx with
    | nan => simp [flt] at hlt
    | inf t => cases t <;> simp_all [flt, fsub, fneg, fadd]
    | fin t k =>
      cases v with
      | nan => exact absurd rfl hv
      | inf u => cases u <;> simp [flt] at h1 h2
      | fin u i =>
        simp only [flt, decide_eq_true_eq] at hlt
        simp only [flt, decide_eq_false_iff_not] at h1 h2
        have hneg : sval (!s) j = - sval s j := by cases s <;> simp [sval]
        have hz : ¬ (sval t k + -sval s j = 0) := by omega
        have hz' : decide (sval t k + -sval s j < 0) = false := by simp; omega
        simp only [fsub, fneg, fadd, hneg, if_neg hz, hz', roundTo, ofMag] at hmx
        by_cases hov : roundMag (sval t k + -sval s j).natAbs 1 < overflowMag
        · rw [if_pos hov] at hmx
          have hd : roundMag (sval t k + -sval s j).natAbs 1 = d := by
            injection hmx
          simp only [fsub, fneg, fadd, hneg]
          by_cases hzv : sval u i + -sval s j = 0
          · rw [if_pos hzv]
            exact ⟨_, 0, rfl, Nat.zero_le _, Or.inr rfl⟩
          · rw [if_neg hzv]
            have hzv' : decide (sval u i + -sval s j < 0) = false := by simp; omega
            rw [hzv']
            have hle : (sval u i + -sval s j).natAbs ≤ (sval t k + -sval s j).natAbs := by
              omega
            have hm := @roundMag_mono _ _ 1 hle
            rw [hd] at hm
            have hlt' : roundMag (sval u i + -sval s j).natAbs 1 < overflowMag := by
              rw [← hd] at hm; omega
            refine ⟨false, roundMag (sval u i + -sval s j).natAbs 1, ?_, hm, Or.inl rfl⟩
            simp only [roundTo, ofMag, if_pos hlt']
        · rw [if_neg hov] at hmx
          cases hmx

/-- Under `min < max` with a finite `max - min`, the index of a sample that is
not NaN lies in `[0, bins - 1]`. -/
theorem binIndex_bounds {mn mx v : F64} {bins : Nat} (hlt : flt mn mx = true)
    (hfin : (fsub mx mn).isFinite = true) (hv : v ≠ F64.nan) (h1 : flt v mn = false)
    (h2 : flt mx v = false) (hb : 1 ≤ bins) (hb2 : bins < 2 ^ 31) :
    0 ≤ binIndex mn mx bins v ∧ binIndex mn mx bins v ≤ (bins : Int) - 1 := by
  obtain ⟨d, hd, he⟩ := fsub_pos_of_flt hlt hfin
  obtain ⟨s, A, hA, hle, hs⟩ := fsub_le_of_between he hlt hv h1 h2
  have hm : ((bins : Int) - 1).toNat = bins - 1 := by omega
  have hb53' : (bins : Int) - 1 < 2 ^ 53 := by
    have : (2:Nat) ^ 31 < 2 ^ 53 := two_pow_lt_two_pow (by decide)
    omega
  have := @toInt32_product_bounds s A d (bins - 1) hd hle hs (by omega)
  unfold binIndex
  rw [hA, he, ofInt_exact (by omega) hb53', hm]
  have hcast : ((bins - 1 : Nat) : Int) = (bins : Int) - 1 := by omega
  rw [hcast] at this
  exact this

/-- C17, counterexample.  (1) On `[-DBL_MAX, DBL_MAX]` in `4` bins the difference
`max - min` overflows to `+inf`; the sample `DBL_MAX` gets `inf / inf = NaN`, its
index is `-2^31`, the guard discards it and the counts `[1, 0, 0, 0]` sum to `1`,
not `n = 2`.  (2) On `[-2^54, 0.5, 1]` in `4` bins both `0.5 - min` and
`1 - min` round to `2^54`, so the sample `0.5 < max` also gets index `3`: the last
bin counts `2` samples while only one sample equals max. -/
theorem c17_guard_discards_and_last_bin :
    (∀ x ∈ [fneg maxDouble, maxDouble, negTwoPow54, half, ofNat 1], x.WF) ∧
    min_element [fneg maxDouble, maxDouble] = some (fneg maxDouble) ∧
    max_element [fneg maxDouble, maxDouble] = some maxDouble ∧
    flt (fneg maxDouble) maxDouble = true ∧
    binIndex (fneg maxDouble) maxDouble 4 maxDouble = -(2 ^ 31) ∧
    buildHistogram [fneg maxDouble, maxDouble] 4 = some [1, 0, 0, 0] ∧
    min_element [negTwoPow54, half, ofNat 1] = some negTwoPow54 ∧
    max_element [negTwoPow54, half, ofNat 1] = some (ofNat 1) ∧
    flt half (ofNat 1) = true ∧
    binIndex negTwoPow54 (ofNat 1) 4 half = 3 ∧
    buildHistogram [negTwoPow54, half, ofNat 1] 4 = some [1, 0, 0, 2] ∧
    [negTwoPow54, half, ofNat 1].countP (fun v => feq v (ofNat 1)) = 1 := by
  decide!

/-- C17, amended.  For every sample sequence without NaN with `min < max` whose
difference `max - min` is finite (no overflow), and every `bins >= 1`, every
sample's computed bin index lies in `[0, bins - 1]`, so the guard never discards
a sample and the histogram counts sum to exactly `n`; every sample equal to max
is counted in the last bin (index `bins - 1`), which may also count samples
below max.  (Stated for `bins < 2^31` and fewer than `2^31` samples, the range
of the `int` variables.) -/
theorem c17_guard_never_discards (data : List F64) (bins : Nat) (mn mx : F64)
    (hmin : min_element data = some mn) (hmax : max_element data = some mx)
    (hlt : flt mn mx = true) (hfin : (fsub mx mn).isFinite = true)
    (hnan : ∀ v ∈ data, v ≠ F64.nan)
    (hb : 1 ≤ bins) (hb2 : bins < 2 ^ 31) (hn : data.length < 2 ^ 31) :
    (∀ v ∈ data, 0 ≤ binIndex mn mx bins v ∧ binIndex mn mx bins v ≤ (bins : Int) - 1) ∧
    (∀ v ∈ data, feq v mx = true → binIndex mn mx bins v = (bins : Int) - 1) ∧
    ∃ h, buildHistogram data bins = some h ∧ h.sum = (data.length : Int) := by
  obtain ⟨_, hm2⟩ := min_element_spec hmin
  obtain ⟨_, hM2⟩ := max_element_spec hmax
  have hidx : ∀ v ∈ data,
      0 ≤ binIndex mn mx bins v ∧ binIndex mn mx bins v ≤ (bins : Int) - 1 :=
    fun v hv => binIndex_bounds hlt hfin (hnan v hv) (hm2 v hv) (hM2 v hv) hb hb2
  refine ⟨hidx, fun v _ hv => binIndex_of_feq_max hlt hfin hv hb hb2, ?_⟩
  have hn' : ((data.length : Nat) : Int) < 2 ^ 31 := by exact_mod_cast hn
  obtain ⟨_, _, r3⟩ := foldl_binStep_count mn mx bins data (List.replicate bins 0)
    (by simp) (by intro c hc; rw [(List.mem_replicate.1 hc).2]; omega)
  refine ⟨data.foldl (binStep mn mx bins) (List.replicate bins 0),
    by simp only [buildHistogram, hmin, hmax], ?_⟩
  rw [r3]
  have hz : (List.replicate bins (0 : Int)).sum = 0 := by simp
  rw [hz, zero_add]
  congr 1
  apply List.countP_eq_length.2
  intro v hv
  have := hidx v hv
  simp only [decide_eq_true_eq]
  omega

/-- C17, witness of the amended statement: `[1, 2, 3, 4, 5]` in `4` bins. -/
theorem c17_guard_never_discards_witness :
    (∀ v ∈ oneToFive, 0 ≤ binIndex (ofNat 1) (ofNat 5) 4 v ∧
      binIndex (ofNat 1) (ofNat 5) 4 v ≤ ((4 : Nat) : Int) - 1) ∧
    (∀ v ∈ oneToFive, feq v (ofNat 5) = true →
      binIndex (ofNat 1) (ofNat 5) 4 v = ((4 : Nat) : Int) - 1) ∧
    ∃ h, buildHistogram oneToFive 4 = some h ∧ h.sum = (oneToFive.length : Int) :=
  c17_guard_never_discards oneToFive 4 (ofNat 1) (ofNat 5) (by decide!) (by decide!)
    (by decide!) (by decide!) (by decide!) (by decide) (by decide) (by simp [oneToFive])

/-! ## C13: bars are unbroken -/

theorem foldl_imax_spec (cs : List Int) : ∀ (c : Int) (seen : List Int),
    c ∈ seen → (∀ v ∈ seen, v ≤ c) →
    (cs.foldl (fun largest v => if largest < v then v else largest) c) ∈ seen ++ cs ∧
    ∀ v ∈ seen ++ cs, v ≤ cs.foldl (fun largest v => if largest < v then v else largest) c := by
  induction cs with
  | nil => intro c seen hc h; simpa using ⟨hc, h⟩
  | cons y ys ih =>
    intro c seen hc h
    simp only [List.foldl_cons]
    have hs : seen ++ y :: ys = (seen ++ [y]) ++ ys := by simp
    rw [hs]
    by_cases hy : c < y
    · rw [if_pos hy]
      apply ih y (seen ++ [y]) (by simp)
      intro v hv
      rcases List.mem_append.1 hv with hv | hv
      · have := h v hv; omega
      · have : v = y := by simpa using hv
        omega
    · rw [if_neg hy]
      apply ih c (seen ++ [y]) (by simp [hc])
      intro v hv
      rcases List.mem_append.1 hv with hv | hv
      · exact h v hv
      · have : v = y := by simpa using hv
        omega

/-- The value `max_count` is an entry of the histogram and bounds every entry. -/
theorem max_count_spec {histogram : List Int} {m : Int} (h : max_count histogram = some m) :
    m ∈ histogram ∧ ∀ v ∈ histogram, v ≤ m := by
  cases histogram with
  | nil => simp [max_count] at h
  | cons c cs =>
    simp only [max_count, Option.some.injEq] at h
    have := foldl_imax_spec cs c [c] (by simp) (by intro v hv; have : v = c := by simpa using hv
                                                   omega)
    rw [h] at this
    simpa using this

theorem wrap32_id {z : Int} (h0 : -(2 ^ 31) ≤ z) (h1 : z < 2 ^ 31) : wrap32 z = z := by
  unfold wrap32
  omega

/-- Within the rendering range the cell test is the exact comparison
`max_count * h <= count * 20`. -/
theorem cell_eq_star_iff {m c h : Int} (hm : 0 ≤ m ∧ m * 20 < 2 ^ 31)
    (hc : 0 ≤ c ∧ c * 20 < 2 ^ 31) (h0 : 0 ≤ h) (h20 : h ≤ 20) :
    cell m h c = '*' ↔ m * h ≤ c * 20 := by
  have hmh0 : 0 ≤ m * h := Int.mul_nonneg hm.1 h0
  have hmh : m * h ≤ m * 20 := Int.mul_le_mul_of_nonneg_left h20 hm.1
  unfold cell imul height
  rw [wrap32_id (by omega) (by omega), wrap32_id (by omega) (by omega)]
  constructor
  · intro hs
    by_contra hn
    rw [if_neg hn] at hs
    exact absurd hs (by decide)
  · intro hle
    rw [if_pos hle]

theorem rowCells_getD (histogram : List Int) (m h : Int) {b : Nat} (hb : b < histogram.length) :
    (rowCells histogram m h).getD b ' ' = cell m h (histogram.getD b 0) := by
  unfold rowCells
  rw [List.getD_eq_getElem _ _ (by simpa using hb), List.getD_eq_getElem _ _ hb, List.getElem_map]

theorem getD_mem_of_lt (histogram : List Int) {b : Nat} (hb : b < histogram.length) :
    histogram.getD b 0 ∈ histogram := by
  rw [List.getD_eq_getElem _ _ hb]
  exact List.getElem_mem _

theorem rowsFrom_length (histogram : List Int) (m : Int) (k : Nat) :
    (rowsFrom histogram m k).length = k + 1 := by
  induction k with
  | zero => rfl
  | succ k ih => simp [rowsFrom, ih]

/-- Row `h` of the loop started at `k` is the `(k - h)`-th row printed. -/
theorem rowsFrom_getD (histogram : List Int) (m : Int) (k : Nat) : ∀ h : Nat, h ≤ k →
    (rowsFrom histogram m k).getD (k - h) "" = renderRow histogram m (h : Int) := by
  induction k with
  | zero =>
    intro h hh
    have : h = 0 := by omega
    subst this
    rfl
  | succ k ih =>
    intro h hh
    rcases Nat.lt_or_ge h (k + 1) with hlt | hge
    · have e : k + 1 - h = (k - h) + 1 := by omega
      rw [e]
      simp only [rowsFrom, List.getD_cons_succ]
      exact ih h (by omega)
    · have : h = k + 1 := by omega
      subst this
      simp [rowsFrom]

/-- C13.  For every non-empty histogram whose counters are in the rendering
range (`0 <= count`, `count * 20 < 2^31`, so the `int` products do not overflow),
row `h` (`h` from `20` down to `0`, the `(20 - h)`-th row printed) shows `'*'` in
column `b` exactly when `count_b * 20 >= max_count * h`, and bars are unbroken:
if row `h` shows `'*'` in column `b`, so does every lower row `h'`,
`0 <= h' <= h`. -/
theorem c13_bars_unbroken (histogram : List Int) (m : Int)
    (hmax : max_count histogram = some m) (hr : InRenderRange histogram) :
    (∃ rows, histogramRows histogram = some rows ∧ rows.length = 21 ∧
      ∀ h : Nat, h ≤ 20 → rows.getD (20 - h) "" =
        setw 8 (formatInt (rowLabel m h)) ++ " |" ++
          String.mk (rowCells histogram m h) ++ "\n") ∧
    (∀ (h : Int) (b : Nat), 0 ≤ h → h ≤ 20 → b < histogram.length →
      ((rowCells histogram m h).getD b ' ' = '*' ↔ m * h ≤ histogram.getD b 0 * 20)) ∧
    (∀ (h h' : Int) (b : Nat), 0 ≤ h' → h' ≤ h → h ≤ 20 → b < histogram.length →
      (rowCells histogram m h).getD b ' ' = '*' →
      (rowCells histogram m h').getD b ' ' = '*') := by
  obtain ⟨hm1, _⟩ := max_count_spec hmax
  have hmr := hr m hm1
  have hiff : ∀ (h : Int) (b : Nat), 0 ≤ h → h ≤ 20 → b < histogram.length →
      ((rowCells histogram m h).getD b ' ' = '*' ↔ m * h ≤ histogram.getD b 0 * 20) := by
    intro h b h0 h20 hb
    rw [rowCells_getD histogram m h hb]
    exact cell_eq_star_iff hmr (hr _ (getD_mem_of_lt histogram hb)) h0 h20
  refine ⟨⟨rowsFrom histogram m 20, by simp only [histogramRows, hmax],
    rowsFrom_length histogram m 20, fun h hh => rowsFrom_getD histogram m 20 h hh⟩, hiff, ?_⟩
  intro h h' b h0 hle h20 hb hs
  have h1 := (hiff h b (by omega) h20 hb).1 hs
  apply (hiff h' b h0 (by omega) hb).2
  have : m * h' ≤ m * h := Int.mul_le_mul_of_nonneg_left hle hmr.1
  omega

/-- C13, witness: the histogram `[2, 1, 1, 1]`. -/
theorem c13_bars_unbroken_witness :
    (∃ rows, histogramRows [2, 1, 1, 1] = some rows ∧ rows.length = 21 ∧
      ∀ h : Nat, h ≤ 20 → rows.getD (20 - h) "" =
        setw 8 (formatInt (rowLabel 2 h)) ++ " |" ++
          String.mk (rowCells [2, 1, 1, 1] 2 h) ++ "\n") ∧
    (∀ (h : Int) (b : Nat), 0 ≤ h → h ≤ 20 → b < [(2 : Int), 1, 1, 1].length →
      ((rowCells [2, 1, 1, 1] 2 h).getD b ' ' = '*' ↔
        2 * h ≤ [(2 : Int), 1, 1, 1].getD b 0 * 20)) ∧
    (∀ (h h' : Int) (b : Nat), 0 ≤ h' → h' ≤ h → h ≤ 20 → b < [(2 : Int), 1, 1, 1].length →
      (rowCells [2, 1, 1, 1] 2 h).getD b ' ' = '*' →
      (rowCells [2, 1, 1, 1] 2 h').getD b ' ' = '*') :=
  c13_bars_unbroken [2, 1, 1, 1] 2 (by decide) (by unfold InRenderRange; decide)

/-! ## C19: top and bottom rows -/

/-- C19.  For every non-empty histogram (`bins >= 1`) whose counters are in the
rendering range, the top row (`h = 20`) shows `'*'` in exactly those columns
whose count equals `max_count`, so it contains at least one `'*'`, and the
bottom row (`h = 0`) shows `'*'` in every column. -/
theorem c19_top_and_bottom_rows (histogram : List Int) (m : Int)
    (hmax : max_count histogram = some m) (hr : InRenderRange histogram) :
    (∀ b : Nat, b < histogram.length →
      ((rowCells histogram m 20).getD b ' ' = '*' ↔ histogram.getD b 0 = m)) ∧
    (∃ b : Nat, b < histogram.length ∧ (rowCells histogram m 20).getD b ' ' = '*') ∧
    (∀ b : Nat, b < histogram.length → (rowCells histogram m 0).getD b ' ' = '*') := by
  obtain ⟨hm1, hm2⟩ := max_count_spec hmax
  have hmr := hr m hm1
  have htop : ∀ b : Nat, b < histogram.length →
      ((rowCells histogram m 20).getD b ' ' = '*' ↔ histogram.getD b 0 = m) := by
    intro b hb
    have hc := getD_mem_of_lt histogram hb
    have hle := hm2 _ hc
    rw [rowCells_getD histogram m 20 hb,
      cell_eq_star_iff hmr (hr _ hc) (by decide) (by decide)]
    constructor <;> intro h <;> omega
  refine ⟨htop, ?_, ?_⟩
  · obtain ⟨b, hb, hbe⟩ := List.getElem_of_mem hm1
    refine ⟨b, hb, (htop b hb).2 ?_⟩
    rw [List.getD_eq_getElem _ _ hb]
    exact hbe
  · intro b hb
    have hc := getD_mem_of_lt histogram hb
    rw [rowCells_getD histogram m 0 hb,
      cell_eq_star_iff hmr (hr _ hc) (by decide) (by decide)]
    have := (hr _ hc).1
    omega

/-- C19, witness: the histogram `[2, 1, 1, 1]`. -/
theorem c19_top_and_bottom_rows_witness :
    (∀ b : Nat, b < [(2 : Int), 1, 1, 1].length →
      ((rowCells [2, 1, 1, 1] 2 20).getD b ' ' = '*' ↔ [(2 : Int), 1, 1, 1].getD b 0 = 2)) ∧
    (∃ b : Nat, b < [(2 : Int), 1, 1, 1].length ∧
      (rowCells [2, 1, 1, 1] 2 20).getD b ' ' = '*') ∧
    (∀ b : Nat, b < [(2 : Int), 1, 1, 1].length →
      (rowCells [2, 1, 1, 1] 2 0).getD b ' ' = '*') :=
  c19_top_and_bottom_rows [2, 1, 1, 1] 2 (by decide) (by unfold InRenderRange; decide)

/-! ## C20: the all-empty histogram -/

theorem max_count_replicate_zero (n : Nat) : max_count (List.replicate (n + 1) 0) = some 0 := by
  have h : ∀ k : Nat, (List.replicate k (0 : Int)).foldl
      (fun largest v => if largest < v then v else largest) 0 = 0 := by
    intro k
    induction k with
    | zero => rfl
    | succ k ih => simp [List.replicate_succ, ih]
  simp [List.replicate_succ, max_count, h]

theorem imul_zero_left (h : Int) : imul 0 h = 0 := by
  simp [imul, wrap32]

theorem rowsFrom_const (histogram : List Int) (m : Int) (r : String)
    (hrow : ∀ h : Int, renderRow histogram m h = r) :
    ∀ k, rowsFrom histogram m k = List.replicate (k + 1) r := by
  intro k
  induction k with
  | zero => simp [rowsFrom, hrow]
  | succ k ih => simp [rowsFrom, hrow, ih, List.replicate_succ]

/-- C20.  When every one of the `bins >= 1` counts is `0`, `max_count` is `0`,
the rendering condition `count * 20 >= max_count * h` holds for every row and
column, every row label is `0`, and all `21` rows printed are the label `0` in
width 8, `" |"` and `bins` characters `'*'`. -/
theorem c20_all_empty_rows (bins : Nat) (hb : 1 ≤ bins) :
    max_count (List.replicate bins 0) = some 0 ∧
    (∀ h : Int, rowLabel 0 h = 0 ∧ cell 0 h 0 = '*' ∧
      rowCells (List.replicate bins 0) 0 h = List.replicate bins '*') ∧
    histogramRows (List.replicate bins 0) = some (List.replicate 21
      ("       0 |" ++ String.mk (List.replicate bins '*') ++ "\n")) := by
  obtain ⟨n, rfl⟩ : ∃ n, bins = n + 1 := ⟨bins - 1, by omega⟩
  have hcell : ∀ h : Int, cell 0 h 0 = '*' := by
    intro h
    simp [cell, imul_zero_left]
  have hlabel : ∀ h : Int, rowLabel 0 h = 0 := by
    intro h
    simp [rowLabel, imul_zero_left]
  have hcells : ∀ h : Int,
      rowCells (List.replicate (n + 1) 0) 0 h = List.replicate (n + 1) '*' := by
    intro h
    simp [rowCells, List.map_replicate, hcell]
  have hfmt : setw 8 (formatInt 0) = "       0" := by decide
  have hrow : ∀ h : Int, renderRow (List.replicate (n + 1) 0) 0 h
      = "       0 |" ++ String.mk (List.replicate (n + 1) '*') ++ "\n" := by
    intro h
    unfold renderRow
    rw [hlabel, hcells, hfmt]
    rfl
  refine ⟨max_count_replicate_zero n, fun h => ⟨hlabel h, hcell h, hcells h⟩, ?_⟩
  simp only [histogramRows, max_count_replicate_zero]
  rw [rowsFrom_const _ _ _ hrow 20]

/-- C20, witness: four empty bins. -/
theorem c20_all_empty_rows_witness :
    max_count (List.replicate 4 0) = some 0 ∧
    (∀ h : Int, rowLabel 0 h = 0 ∧ cell 0 h 0 = '*' ∧
      rowCells (List.replicate 4 0) 0 h = List.replicate 4 '*') ∧
    histogramRows (List.replicate 4 0) = some (List.replicate 21
      ("       0 |" ++ String.mk (List.replicate 4 '*') ++ "\n")) :=
  c20_all_empty_rows 4 (by decide)

/-! ## C14: the row labels -/

/-- C14, the code at `[1, 2, 3, 4, 5]` in `4` bins (histogram `[2, 1, 1, 1]`,
`max_count = 2`).  The `21` rows printed carry the labels `2, 1, ..., 1, 0, ..., 0`:
the label is the `int` quotient `max_count * h / 20`, printed as an integer in
width 8 with no decimal point (not `2.00`, `1.90`, ...). -/
theorem c14_rows_of_one_to_five :
    buildHistogram oneToFive 4 = some [2, 1, 1, 1] ∧
    histogramRows [2, 1, 1, 1] = some
      ["       2 |*   \n", "       1 |*   \n", "       1 |*   \n", "       1 |*   \n",
       "       1 |*   \n", "       1 |*   \n", "       1 |*   \n", "       1 |*   \n",
       "       1 |*   \n", "       1 |*   \n", "       1 |****\n", "       0 |****\n",
       "       0 |****\n", "       0 |****\n", "       0 |****\n", "       0 |****\n",
       "       0 |****\n", "       0 |****\n", "       0 |****\n", "       0 |****\n",
       "       0 |****\n"] ∧
    rowLabel 2 19 = 1 ∧ formatInt (rowLabel 2 20) = "2" := by
  decide!

/-! ## C15: the empty sequence -/

/-- C15, counterexample.  On the empty sequence `calculate_statistics` does
divide by the zero population size: the local `mean` is `0.0 / 0 = NaN`. -/
theorem c15_empty_divides_by_zero :
    accumulate [] zero = zero ∧ ofNat ([] : List F64).length = zero ∧
    meanOf [] = F64.nan := by
  decide!

/-- C15, amended.  `calculate_statistics` has no check for an empty sequence
and no error to report: on the empty sequence it divides the zero sum by the zero
population size (mean, variance and stddev are NaN) and then dereferences the end
iterator that `std::min_element` returns, which is undefined (`none`). -/
theorem c15_empty_sequence :
    meanOf [] = F64.nan ∧ varianceOf [] = F64.nan ∧ stddevOf [] = F64.nan ∧
    min_element [] = none ∧ max_element [] = none ∧ calculate_statistics [] = none := by
  decide!

/-! ## C16: the draw loop of `analyze_generator` -/

theorem drawLoop_spec {σ : Type} (draw : σ → F64 × σ) (gen0 : σ) : ∀ (remaining done : Nat)
    (numbers : List F64), numbers.length = done →
    (∀ i, i < done → numbers.getD i zero = nthDraw draw gen0 i) →
    (drawLoop draw remaining (genAfter draw gen0 done) numbers).2
        = genAfter draw gen0 (done + remaining) ∧
    (drawLoop draw remaining (genAfter draw gen0 done) numbers).1.length = done + remaining ∧
    ∀ i, i < done + remaining →
      (drawLoop draw remaining (genAfter draw gen0 done) numbers).1.getD i zero
        = nthDraw draw gen0 i := by
  intro remaining
  induction remaining with
  | zero => intro done numbers hl hn; exact ⟨rfl, hl, hn⟩
  | succ k ih =>
    intro done numbers hl hn
    have hstep : (draw (genAfter draw gen0 done)).2 = genAfter draw gen0 (done + 1) := rfl
    have hl' : (numbers ++ [(draw (genAfter draw gen0 done)).1]).length = done + 1 := by
      simp [hl]
    have hn' : ∀ i, i < done + 1 →
        (numbers ++ [(draw (genAfter draw gen0 done)).1]).getD i zero = nthDraw draw gen0 i := by
      intro i hi
      rcases Nat.lt_or_ge i done with h | h
      · have := hn i h
        rw [List.getD_eq_getElem _ _ (by rw [hl]; exact h)] at this
        rw [List.getD_eq_getElem _ _ (by rw [hl']; exact hi),
          List.getElem_append_left (by rw [hl]; exact h)]
        exact this
      · have hie : i = done := by omega
        subst hie
        rw [List.getD_eq_getElem _ _ (by rw [hl']; exact hi),
          List.getElem_append_right (by rw [hl])]
        simp [hl, nthDraw]
    have := ih (done + 1) _ hl' hn'
    have e : done + 1 + k = done + (k + 1) := by omega
    rw [e] at this
    simp only [drawLoop]
    rw [hstep]
    exact this

/-- C16.  For every generator (with its normal-distribution adapter) and every
sample count `N`, `analyze_generator` advances the generator through the adapter
exactly `N` times; the sequence it passes to `calculate_statistics` has length
`N`, its `i`-th element is the `i`-th value drawn, and the same sequence is
passed to `print_histogram`. -/
theorem c16_draws_in_order {σ : Type} (draw : σ → F64 × σ) (gen : σ) (samples : Nat) :
    (analyze_generator draw gen samples).gen = genAfter draw gen samples ∧
    (analyze_generator draw gen samples).statsInput.length = samples ∧
    (∀ i, i < samples →
      (analyze_generator draw gen samples).statsInput.getD i zero = nthDraw draw gen i) ∧
    (analyze_generator draw gen samples).histogramInput
      = (analyze_generator draw gen samples).statsInput ∧
    (analyze_generator draw gen samples).stats
      = calculate_statistics (analyze_generator draw gen samples).statsInput ∧
    (analyze_generator draw gen samples).histogram
      = buildHistogram (analyze_generator draw gen samples).histogramInput 50 := by
  have := drawLoop_spec draw gen samples 0 [] rfl (by intro i hi; omega)
  simp only [Nat.zero_add, genAfter] at this
  exact ⟨this.1, this.2.1, this.2.2, rfl, rfl, rfl⟩

/-! ## Integer-valued samples: the arithmetic is exact -/

theorem sval_natAbs (z : Int) : sval (decide (z < 0)) z.natAbs = z := by
  unfold sval
  by_cases h : z < 0
  · simp only [h, decide_True, if_true]; omega
  · simp only [h, decide_False, Bool.false_eq_true, if_false]; omega

/-- An integer below `2^53` in magnitude converts to a double exactly. -/
theorem ofInt_eq {z : Int} (h : z.natAbs < 2 ^ 53) :
    ofInt z = F64.fin (decide (z < 0)) (z.natAbs * unit) := by
  have := @roundTo_exact (decide (z < 0)) (z.natAbs * unit) 1 (by decide)
    (representable_mul_unit h)
  unfold ofInt
  rw [Nat.mul_one] at this
  exact this

theorem ofInt_zero : ofInt 0 = zero := by
  rw [ofInt_eq (by simp)]
  simp [zero]

/-- Adding two doubles with integer values `a` and `b` gives the double `a + b`
when the sum is below `2^53` in magnitude. -/
theorem fadd_fin_of_int {s t : Bool} {ka kb : Nat} {a b : Int}
    (ha : sval s ka = a * (unit : Int)) (hb : sval t kb = b * (unit : Int))
    (hz : a + b = 0 → (s && t) = false) (hab : (a + b).natAbs < 2 ^ 53) :
    fadd (F64.fin s ka) (F64.fin t kb) = ofInt (a + b) := by
  have hU : (0 : Int) < (unit : Int) := by exact_mod_cast unit_pos
  rw [ofInt_eq hab]
  simp only [fadd]
  rw [ha, hb]
  have e : a * (unit : Int) + b * (unit : Int) = (a + b) * (unit : Int) := by ring
  rw [e]
  by_cases h0 : a + b = 0
  · rw [h0]
    simp [hz h0]
  · have hne : (a + b) * (unit : Int) ≠ 0 := mul_ne_zero h0 (ne_of_gt hU)
    rw [if_neg hne]
    have hn : ((a + b) * (unit : Int)).natAbs = (a + b).natAbs * unit := by
      rw [Int.natAbs_mul, Int.natAbs_ofNat]
    have hs : decide ((a + b) * (unit : Int) < 0) = decide (a + b < 0) := by
      have : (a + b) * (unit : Int) < 0 ↔ a + b < 0 := by
        constructor
        · intro h
          by_contra hc
          have : 0 ≤ (a + b) * (unit : Int) := Int.mul_nonneg (by omega) (le_of_lt hU)
          omega
        · intro h
          exact Int.mul_neg_of_neg_of_pos h hU
      simp only [this]
    rw [hn, hs]
    have := @roundTo_exact (decide (a + b < 0)) ((a + b).natAbs * unit) 1 (by decide)
      (representable_mul_unit hab)
    rw [Nat.mul_one] at this
    exact this

theorem sval_ofInt_mag (z : Int) :
    sval (decide (z < 0)) (z.natAbs * unit) = z * (unit : Int) := by
  rw [sval_mul, sval_natAbs]

theorem fadd_ofInt {a b : Int} (ha : a.natAbs < 2 ^ 53) (hb : b.natAbs < 2 ^ 53)
    (hab : (a + b).natAbs < 2 ^ 53) : fadd (ofInt a) (ofInt b) = ofInt (a + b) := by
  rw [ofInt_eq ha, ofInt_eq hb]
  refine fadd_fin_of_int (sval_ofInt_mag a) (sval_ofInt_mag b) ?_ hab
  intro h0
  by_cases h1 : a < 0
  · have : ¬ b < 0 := by omega
    simp [this]
  · simp [h1]

theorem fsub_ofInt {a b : Int} (ha : a.natAbs < 2 ^ 53) (hb : b.natAbs < 2 ^ 53)
    (hab : (a - b).natAbs < 2 ^ 53) : fsub (ofInt a) (ofInt b) = ofInt (a - b) := by
  rw [ofInt_eq ha, ofInt_eq hb, sub_eq_add_neg]
  simp only [fsub, fneg]
  refine fadd_fin_of_int (sval_ofInt_mag a) ?_ ?_ (by rwa [← sub_eq_add_neg])
  · have := sval_ofInt_mag b
    by_cases h1 : b < 0
    · simp only [h1, decide_True, sval, if_true, Bool.not_true, Bool.false_eq_true,
        if_false] at this ⊢
      rw [neg_mul, ← this, neg_neg]
    · simp only [h1, decide_False, sval, Bool.false_eq_true, if_false, Bool.not_false,
        if_true] at this ⊢
      rw [neg_mul, ← this]
  · intro h0
    by_cases h1 : a < 0
    · have : b < 0 := by omega
      simp [this]
    · simp [h1]

theorem fmul_ofInt_self {a : Int} (h : (a * a).natAbs < 2 ^ 53) :
    fmul (ofInt a) (ofInt a) = ofInt (a * a) := by
  have h2 : a.natAbs * a.natAbs < 2 ^ 53 := by rwa [Int.natAbs_mul] at h
  have ha : a.natAbs < 2 ^ 53 := lt_of_le_of_lt (Nat.le_mul_self _) h2
  rw [ofInt_eq ha, ofInt_eq h]
  simp only [fmul, Bool.xor_self]
  have hs : decide (a * a < 0) = false := by
    have := mul_self_nonneg a
    simp only [decide_eq_false_iff_not]
    omega
  rw [hs, Int.natAbs_mul]
  have := @roundTo_exact false (a.natAbs * a.natAbs * unit) unit unit_pos
    (representable_mul_unit h2)
  have e : a.natAbs * unit * (a.natAbs * unit) = a.natAbs * a.natAbs * unit * unit := by ring
  rw [e]
  exact this

theorem fdiv_ofInt_ofNat {n : Nat} {q : Int} (hn : 0 < n) (hlen : n < 2 ^ 53)
    (hq : ((n : Int) * q).natAbs < 2 ^ 53) :
    fdiv (ofInt ((n : Int) * q)) (ofNat n) = ofInt q := by
  have hq2 : n * q.natAbs < 2 ^ 53 := by rwa [Int.natAbs_mul, Int.natAbs_ofNat] at hq
  have hq1 : q.natAbs < 2 ^ 53 := lt_of_le_of_lt (Nat.le_mul_of_pos_left _ hn) hq2
  rw [ofInt_eq hq, ofInt_eq hq1, fdiv_ofNat hn hlen]
  have hs : decide ((n : Int) * q < 0) = decide (q < 0) := by
    have hn' : (0 : Int) < (n : Int) := by exact_mod_cast hn
    have : (n : Int) * q < 0 ↔ q < 0 := by
      constructor
      · intro h
        by_contra hc
        have : 0 ≤ (n : Int) * q := Int.mul_nonneg (le_of_lt hn') (by omega)
        omega
      · intro h
        exact Int.mul_neg_of_pos_of_neg hn' h
    simp only [this]
  rw [hs, Int.natAbs_mul, Int.natAbs_ofNat]
  have := @roundTo_exact (decide (q < 0)) (q.natAbs * unit) (n * unit)
    (Nat.mul_pos hn unit_pos) (representable_mul_unit hq1)
  have e : n * q.natAbs * unit * unit = q.natAbs * unit * (n * unit) := by ring
  rw [e]
  exact this

theorem natAbs_sum_le (g : Int → Int) (B : Nat) : ∀ zs : List Int,
    (∀ z ∈ zs, (g z).natAbs ≤ B) → ((zs.map g).sum).natAbs ≤ zs.length * B := by
  intro zs
  induction zs with
  | nil => intro _; simp
  | cons z zs ih =>
    intro h
    have h1 := h z (by simp)
    have h2 := ih (fun y hy => h y (by simp [hy]))
    simp only [List.map_cons, List.sum_cons, List.length_cons]
    have h3 := Int.natAbs_add_le (g z) (zs.map g).sum
    have e : (zs.length + 1) * B = zs.length * B + B := by ring
    rw [e]
    omega

/-- A left fold that adds `f x` over integer-valued samples, where `f` maps the
double `z` to the double `g z`, computes the integer sum of the `g z` exactly as
long as the bound on the partial sums stays below `2^53`. -/
theorem foldl_fadd_ofInt (f : F64 → F64) (g : Int → Int) (B : Nat) :
    ∀ (zs : List Int) (acc : Int),
      (∀ z ∈ zs, f (ofInt z) = ofInt (g z) ∧ (g z).natAbs ≤ B) →
      acc.natAbs + zs.length * B < 2 ^ 53 →
      (zs.map ofInt).foldl (fun a x => fadd a (f x)) (ofInt acc)
        = ofInt (acc + (zs.map g).sum) := by
  intro zs
  induction zs with
  | nil => intro acc _ _; simp
  | cons z zs ih =>
    intro acc h hb
    obtain ⟨hf, hB⟩ := h z (by simp)
    have e : (zs.length + 1) * B = zs.length * B + B := by ring
    simp only [List.length_cons] at hb
    rw [e] at hb
    have h3 := Int.natAbs_add_le acc (g z)
    simp only [List.map_cons, List.foldl_cons, List.sum_cons]
    rw [hf, fadd_ofInt (by omega) (by omega) (by omega),
      ih (acc + g z) (fun y hy => h y (by simp [hy])) (by omega), add_assoc]

/-! ## C18: sum-of-squares form against deviations form -/

theorem sum_sq_deviations (c : Int) : ∀ us : List Int,
    (us.map (fun u => (u - c) ^ 2)).sum
      = (us.map (fun u => u ^ 2)).sum - 2 * c * us.sum + (us.length : Int) * c ^ 2 := by
  intro us
  induction us with
  | nil => simp
  | cons u us ih =>
    simp only [List.map_cons, List.sum_cons, List.length_cons, ih]
    push_cast
    ring

/-- C18, counterexample.  In double arithmetic the sum-of-squares form computed
by the code differs from the deviations form: for the samples `1.0, 2.0, 3.0`
(mean exactly `2.0`) the code computes `14/3 - 4 = 0x1.5555555555558p-1` while
the deviations form gives `2/3 = 0x1.5555555555555p-1`, and the standard
deviations, their square roots, differ too. -/
theorem c18_variance_forms_differ :
    meanOf oneTwoThree = ofNat 2 ∧
    varianceOf oneTwoThree = F64.fin false (0x15555555555558 * 2 ^ 1021) ∧
    specVarianceDev oneTwoThree = F64.fin false (0x15555555555555 * 2 ^ 1021) ∧
    varianceOf oneTwoThree ≠ specVarianceDev oneTwoThree ∧
    stddevOf oneTwoThree ≠ fsqrt (specVarianceDev oneTwoThree) ∧
    (∃ r, calculate_statistics oneTwoThree = some r ∧
      r.stddev ≠ fsqrt (specVarianceDev oneTwoThree)) := by
  refine ⟨by decide!, by decide!, by decide!, by decide!, by decide!, ?_⟩
  obtain ⟨m, hm⟩ := min_element_isSome (show oneTwoThree ≠ [] by decide)
  obtain ⟨M, hM⟩ := max_element_isSome (show oneTwoThree ≠ [] by decide)
  refine ⟨_, calculate_statistics_eq hm hM, ?_⟩
  show stddevOf oneTwoThree ≠ fsqrt (specVarianceDev oneTwoThree)
  decide!

/-- C18, amended.  For a non-empty sequence of integer-valued samples with
`|z_i| <= B`, `4 * n * B^2 < 2^53`, whose sum is `n * m` and whose sum of squares
is `n * q` (both multiples of `n`), the arithmetic of the code is exact: the mean
is `m`, the sum-of-squares variance is `q - m^2`, this is the population variance
in deviations form, `n * (q - m^2) = sum_i (z_i - m)^2`, the deviations form
evaluated in doubles gives the same double, and the returned stddev is its
correctly rounded square root. -/
theorem c18_variance_forms_agree_on_integers (zs : List Int) (B : Nat) (m q : Int)
    (hne : zs ≠ []) (hB1 : 1 ≤ B) (hB : ∀ z ∈ zs, z.natAbs ≤ B)
    (hbound : 4 * zs.length * B ^ 2 < 2 ^ 53)
    (hm : zs.sum = (zs.length : Int) * m)
    (hq : (zs.map (fun z => z ^ 2)).sum = (zs.length : Int) * q) :
    meanOf (zs.map ofInt) = ofInt m ∧
    varianceOf (zs.map ofInt) = ofInt (q - m ^ 2) ∧
    (zs.length : Int) * (q - m ^ 2) = (zs.map (fun z => (z - m) ^ 2)).sum ∧
    specVarianceDev (zs.map ofInt) = ofInt (q - m ^ 2) ∧
    varianceOf (zs.map ofInt) = specVarianceDev (zs.map ofInt) ∧
    ∃ r, calculate_statistics (zs.map ofInt) = some r ∧ r.mean = ofInt m ∧
      r.stddev = fsqrt (specVarianceDev (zs.map ofInt)) := by
  -- sizes
  have hn : 0 < zs.length := List.length_pos.2 hne
  have hP : B ≤ B * B := Nat.le_mul_self B
  have hNP : B * B ≤ zs.length * (B * B) := Nat.le_mul_of_pos_left _ hn
  have hNB : zs.length * B ≤ zs.length * (B * B) := Nat.mul_le_mul_left _ hP
  have hN : zs.length ≤ zs.length * B := Nat.le_mul_of_pos_right _ hB1
  have hb4 : 4 * (zs.length * (B * B)) < 2 ^ 53 := by
    have e : 4 * zs.length * B ^ 2 = 4 * (zs.length * (B * B)) := by ring
    rw [e] at hbound
    exact hbound
  have hlen : zs.length < 2 ^ 53 := by omega
  have hn' : (0 : Int) < (zs.length : Int) := by exact_mod_cast hn
  have hid : zs.map (fun z => z) = zs := by simp
  -- the exact sums
  have hsum : accumulate (zs.map ofInt) zero = ofInt zs.sum := by
    have := foldl_fadd_ofInt (fun x => x) (fun z => z) B zs 0
      (fun z hz => ⟨rfl, hB z hz⟩) (by simp only [Int.natAbs_zero]; omega)
    rw [ofInt_zero, hid, zero_add] at this
    exact this
  have hsq : ∀ z ∈ zs, (z * z).natAbs ≤ B * B := by
    intro z hz
    rw [Int.natAbs_mul]
    exact Nat.mul_le_mul (hB z hz) (hB z hz)
  have hsqsum : inner_product (zs.map ofInt) (zs.map ofInt) zero
      = ofInt (zs.map (fun z => z * z)).sum := by
    rw [inner_product_self]
    have := foldl_fadd_ofInt (fun x => fmul x x) (fun z => z * z) (B * B) zs 0
      (fun z hz => ⟨fmul_ofInt_self (by have := hsq z hz; omega), hsq z hz⟩)
      (by simp only [Int.natAbs_zero]; omega)
    rw [ofInt_zero, zero_add] at this
    exact this
  have hq' : (zs.map (fun z => z * z)).sum = (zs.length : Int) * q := by
    rw [← hq]
    congr 1
    apply List.map_congr_left
    intro z _
    ring
  -- sizes of the mean and of the mean square
  have hsumB := natAbs_sum_le (fun z => z) B zs hB
  rw [hid, hm, Int.natAbs_mul, Int.natAbs_ofNat] at hsumB
  have hmB : m.natAbs ≤ B := Nat.le_of_mul_le_mul_left hsumB hn
  have hsqB := natAbs_sum_le (fun z => z * z) (B * B) zs hsq
  rw [hq', Int.natAbs_mul, Int.natAbs_ofNat] at hsqB
  have hqB : q.natAbs ≤ B * B := Nat.le_of_mul_le_mul_left hsqB hn
  have hmmB : (m * m).natAbs ≤ B * B := by
    rw [Int.natAbs_mul]
    exact Nat.mul_le_mul hmB hmB
  have hq0 : 0 ≤ q := by
    have h0 : 0 ≤ (zs.map (fun z => z * z)).sum :=
      List.sum_nonneg (by
        intro x hx
        obtain ⟨z, _, rfl⟩ := List.mem_map.1 hx
        exact mul_self_nonneg z)
    rw [hq'] at h0
    by_contra hc
    have : (zs.length : Int) * q < 0 := Int.mul_neg_of_pos_of_neg hn' (by omega)
    omega
  have hmm0 : 0 ≤ m * m := mul_self_nonneg m
  -- mean and variance
  have hmean : meanOf (zs.map ofInt) = ofInt m := by
    unfold meanOf
    rw [hsum, hm, List.length_map]
    exact fdiv_ofInt_ofNat hn hlen (by rw [Int.natAbs_mul, Int.natAbs_ofNat]; omega)
  have hvar : varianceOf (zs.map ofInt) = ofInt (q - m ^ 2) := by
    unfold varianceOf
    rw [hmean, hsqsum, hq', List.length_map,
      fdiv_ofInt_ofNat hn hlen (by rw [Int.natAbs_mul, Int.natAbs_ofNat]; omega),
      fmul_ofInt_self (by omega), fsub_ofInt (by omega) (by omega) (by omega), pow_two]
  -- the deviations form
  have halg : (zs.length : Int) * (q - m ^ 2) = (zs.map (fun z => (z - m) ^ 2)).sum := by
    rw [sum_sq_deviations m zs, hq, hm]
    ring
  have hdevB : ∀ z ∈ zs, ((z - m) * (z - m)).natAbs ≤ 4 * (B * B) := by
    intro z hz
    have h1 : (z - m).natAbs ≤ 2 * B := by
      have := hB z hz
      omega
    rw [Int.natAbs_mul]
    calc (z - m).natAbs * (z - m).natAbs ≤ 2 * B * (2 * B) := Nat.mul_le_mul h1 h1
      _ = 4 * (B * B) := by ring
  have hdevsum : (zs.map ofInt).foldl
      (fun a x => fadd a (fmul (fsub x (ofInt m)) (fsub x (ofInt m)))) zero
      = ofInt (zs.map (fun z => (z - m) * (z - m))).sum := by
    have := foldl_fadd_ofInt (fun x => fmul (fsub x (ofInt m)) (fsub x (ofInt m)))
      (fun z => (z - m) * (z - m)) (4 * (B * B)) zs 0
      (fun z hz => ⟨by
        have h1 := hB z hz
        have h2 := hdevB z hz
        show fmul (fsub (ofInt z) (ofInt m)) (fsub (ofInt z) (ofInt m))
          = ofInt ((z - m) * (z - m))
        rw [fsub_ofInt (by omega) (by omega) (by omega), fmul_ofInt_self (by omega)], hdevB z hz⟩)
      (by
        simp only [Int.natAbs_zero]
        have e : zs.length * (4 * (B * B)) = 4 * (zs.length * (B * B)) := by ring
        rw [e]
        omega)
    rw [ofInt_zero, zero_add] at this
    exact this
  have hdev' : (zs.map (fun z => (z - m) * (z - m))).sum = (zs.length : Int) * (q - m ^ 2) := by
    rw [halg]
    congr 1
    apply List.map_congr_left
    intro z _
    ring
  have hdev : specVarianceDev (zs.map ofInt) = ofInt (q - m ^ 2) := by
    unfold specVarianceDev
    rw [hmean, ← foldl_fadd_eq_partialSum
      (fun x => fmul (fsub x (ofInt m)) (fsub x (ofInt m))) (zs.map ofInt),
      hdevsum, hdev', List.length_map]
    apply fdiv_ofInt_ofNat hn hlen
    have h1 : (q - m ^ 2).natAbs ≤ B * B := by
      rw [pow_two]
      omega
    rw [Int.natAbs_mul, Int.natAbs_ofNat]
    have : zs.length * (q - m ^ 2).natAbs ≤ zs.length * (B * B) := Nat.mul_le_mul_left _ h1
    omega
  have hne' : zs.map ofInt ≠ [] := by simpa using hne
  obtain ⟨mn, hmin⟩ := min_element_isSome hne'
  obtain ⟨mx, hmax⟩ := max_element_isSome hne'
  refine ⟨hmean, hvar, halg, hdev, by rw [hvar, hdev], _,
    calculate_statistics_eq hmin hmax, hmean, ?_⟩
  show stddevOf (zs.map ofInt) = fsqrt (specVarianceDev (zs.map ofInt))
  unfold stddevOf
  rw [hvar, hdev]

/-- C18, witness of the amended statement: the samples `1, 2, 3, 4, 5` with
`B = 5`, mean `3` and mean square `11`. -/
theorem c18_variance_forms_agree_on_integers_witness :
    meanOf ([1, 2, 3, 4, 5].map ofInt) = ofInt 3 ∧
    varianceOf ([1, 2, 3, 4, 5].map ofInt) = ofInt (11 - 3 ^ 2) ∧
    (([1, 2, 3, 4, 5] : List Int).length : Int) * (11 - 3 ^ 2)
      = (([1, 2, 3, 4, 5] : List Int).map (fun z => (z - 3) ^ 2)).sum ∧
    specVarianceDev ([1, 2, 3, 4, 5].map ofInt) = ofInt (11 - 3 ^ 2) ∧
    varianceOf ([1, 2, 3, 4, 5].map ofInt) = specVarianceDev ([1, 2, 3, 4, 5].map ofInt) ∧
    ∃ r, calculate_statistics ([1, 2, 3, 4, 5].map ofInt) = some r ∧ r.mean = ofInt 3 ∧
      r.stddev = fsqrt (specVarianceDev ([1, 2, 3, 4, 5].map ofInt)) :=
  c18_variance_forms_agree_on_integers [1, 2, 3, 4, 5] 5 3 11 (by decide) (by decide)
    (by decide) (by decide) (by decide) (by decide)

end StatAnalysis
